import Mathlib

/-
  Verification of the publish-stac-task repository (src/task.py).

  The embedding models the `Publish` task: `get_path` (template resolution with
  colon escaping), `update_links` (self/canonical link rewriting and URL
  construction), `update_item_dates` (created/updated reconciliation against a
  store), `publish_item_to_s3` (the store write), and `process` (the fail-fast
  batch loop).  Strings are modelled as `List Char`; Python `dict`s holding STAC
  item fields become structures with `Option` fields (a `none` field models a
  missing dictionary key, whose access raises `KeyError`).
-/

namespace PublishStac

/-- Strings are lists of characters. -/
abbrev Str := List Char

/-- Coerce a Lean string literal to the `List Char` representation. -/
def str (s : String) : Str := s.data

/-! ### Models of the Python string primitives used by task.py -/

/-- Prefix test on character lists (Python substring match at position 0). -/
def isPre : Str → Str → Bool
  | [], _ => true
  | _ :: _, [] => false
  | p :: ps, c :: cs => p == c && isPre ps cs

/-- Substring test (Python `in` on strings). -/
def containsSub (pat : Str) : Str → Bool
  | [] => isPre pat []
  | c :: cs => isPre pat (c :: cs) || containsSub pat cs

/-- The escape sequence task.py substitutes for a colon. -/
def escSeq : Str := str "__colon__"

/-- Models `template.replace(":", "__colon__")` (single-character pattern, so
replacement is pointwise expansion). -/
def escColons : Str → Str
  | [] => []
  | c :: cs => (if c == ':' then escSeq else [c]) ++ escColons cs

/-- Fuelled scanner for `out.replace("__colon__", ":")`: left-to-right,
non-overlapping occurrences, exactly Python `str.replace` semantics. -/
def unescapeF : Nat → Str → Str
  | 0, s => s
  | _ + 1, [] => []
  | f + 1, c :: cs =>
    if isPre escSeq (c :: cs) then ':' :: unescapeF f (cs.drop 8)
    else c :: unescapeF f cs

/-- Models `s.replace("__colon__", ":")`. -/
def unescape (s : Str) : Str := unescapeF s.length s

/-- Models `s.rstrip("/")`. -/
def rstripSlashes (s : Str) : Str := (s.reverse.dropWhile (fun c => c == '/')).reverse

/-- Models `s.lstrip("/")`. -/
def lstripSlashes (s : Str) : Str := s.dropWhile (fun c => c == '/')

/-- Models `os.path.join(a, b)` for POSIX paths with a single extra segment. -/
def joinPath (a b : Str) : Str :=
  if b.head? = some '/' then b
  else if a = [] ∨ a.getLast? = some '/' then a ++ b
  else a ++ '/' :: b

/-- Python identifier start character (for `string.Template`'s idpattern). -/
def idStart (c : Char) : Bool := c.isAlpha || c == '_'

/-- Python identifier continuation character. -/
def idChar (c : Char) : Bool := c.isAlphanum || c == '_'

/-- Decimal digit character, as produced by Python `str(int)`. -/
def digitC (n : Nat) : Char := List.getD ['0', '1', '2', '3', '4', '5', '6', '7', '8', '9'] n '9'

/-- Fuelled digit expansion for `str(n)`. -/
def natToStrF : Nat → Nat → Str
  | 0, _ => []
  | f + 1, n => if n < 10 then [digitC n] else natToStrF f (n / 10) ++ [digitC (n % 10)]

/-- Models Python `str(n)` on a natural number: unpadded decimal digits. -/
def natToStr (n : Nat) : Str := natToStrF (n + 1) n

/-- Models Python `str(i)` on an integer. -/
def intToStr (i : Int) : Str := if i < 0 then '-' :: natToStr i.natAbs else natToStr i.natAbs

/-! ### Data model: STAC items, property values, links -/

/-- A JSON scalar stored under a property key (string or integer suffice for
the fields task.py manipulates). -/
inductive PropVal where
  | s (v : Str)
  | i (v : Int)
deriving DecidableEq

/-- Python `str(value)` applied by `Template.substitute` to a property value. -/
def propToStr : PropVal → Str
  | .s v => v
  | .i v => intToStr v

/-- A STAC link object `{rel, href, type}`. -/
structure Link where
  rel : Str
  href : Str
  type : Option Str
deriving DecidableEq

/-- A STAC item as a typed record; `none` in `collection`/`id` models the key
being absent from the Python dict (access raises `KeyError`). -/
structure Item where
  collection : Option Str
  id : Option Str
  properties : List (Str × PropVal)
  links : List Link
deriving DecidableEq

/-- First-match association-list lookup (Python dict read). -/
def lookupA {α : Type} : List (Str × α) → Str → Option α
  | [], _ => none
  | (k, v) :: t, key => if k == key then some v else lookupA t key

/-- Python dict write `d[k] = v`: replace the first binding of `k`, keeping its
position, or append a new binding. -/
def setA {α : Type} : List (Str × α) → Str → α → List (Str × α)
  | [], key, v => [(key, v)]
  | (k, w) :: t, key, v => if k == key then (k, v) :: t else (k, w) :: setA t key v

/-- Python `base.update(upd)` on dicts. -/
def updateD (base upd : List (Str × Str)) : List (Str × Str) :=
  upd.foldl (fun acc p => setA acc p.1 p.2) base

/-- Errors raised by the publish pipeline.  `missingField` models `KeyError`,
`invalidDate` models a `dateutil` parse failure, `validationFailed` the
exception raised on a schema-validation failure (carrying the validator's first
diagnostic message), `attributeError` the `AttributeError` raised when a
non-string (the `{}` default) reaches `template.replace`, and
`templateInvalid` a `ValueError` from `string.Formatter`/`string.Template`. -/
inductive PubErr where
  | missingField (key : Str)
  | invalidDate
  | validationFailed (msg : Str)
  | attributeError
  | templateInvalid
deriving DecidableEq

/-- The message of the exception the Python code raises, as a string:
`KeyError` renders as the quoted key, the validation failure as the f-string
built at task.py line 180. -/
def errMessage : PubErr → Str
  | .missingField k => '\'' :: k ++ ['\'']
  | .invalidDate => str "Unknown string format"
  | .validationFailed m => str "STAC Item validation failed. Error: " ++ m ++ [ '.' ]
  | .attributeError => str "'dict' object has no attribute 'replace'"
  | .templateInvalid => str "Invalid placeholder in string"

/-- Models `dateutil.parser.parse` on an ISO-8601 `YYYY-MM-DD...` prefix,
returning the (year, month, day) components. -/
def parseDateYMD : Str → Option (Nat × Nat × Nat)
  | a :: b :: c :: d :: '-' :: e :: f :: '-' :: g :: h :: rest =>
    if a.isDigit && b.isDigit && c.isDigit && d.isDigit && e.isDigit && f.isDigit
        && g.isDigit && h.isDigit
        && !(match rest with | r :: _ => r.isDigit | [] => false) then
      let y := ((a.toNat - 48) * 10 + (b.toNat - 48)) * 100 + ((c.toNat - 48) * 10 + (d.toNat - 48))
      let m := (e.toNat - 48) * 10 + (f.toNat - 48)
      let dd := (g.toNat - 48) * 10 + (h.toNat - 48)
      if 1 ≤ m && m ≤ 12 && 1 ≤ dd && dd ≤ 31 then some (y, m, dd) else none
    else none
  | _ => none

/-! ### Models of `string.Formatter().parse` and `string.Template.substitute` -/

/-- Fuelled model of key extraction via `string.Formatter().parse`: collects
the field name of every `{field}` occurrence (`{{`/`}}` are literal braces, a
stray brace or an unterminated field raises `ValueError`; conversion/format
specs never occur in colon-escaped templates and are folded into the error
case). -/
def fkF : Nat → Str → Except PubErr (List Str)
  | 0, _ => .error .templateInvalid
  | _ + 1, [] => .ok []
  | f + 1, c :: rest =>
    if c = '{' then
      match rest with
      | [] => .error .templateInvalid
      | c2 :: r =>
        if c2 = '{' then fkF f r
        else
          let name := rest.takeWhile (fun x => !(x == '}' || x == ':' || x == '!'))
          let r1 := rest.dropWhile (fun x => !(x == '}' || x == ':' || x == '!'))
          match r1 with
          | [] => .error .templateInvalid
          | c4 :: r2 =>
            if c4 = '}' then
              match fkF f r2 with
              | .ok ks => .ok (name :: ks)
              | .error e => .error e
            else .error .templateInvalid
    else if c = '}' then
      match rest with
      | [] => .error .templateInvalid
      | c2 :: r => if c2 = '}' then fkF f r else .error .templateInvalid
    else fkF f rest

/-- Key extraction from a template (`[i[1] for i in Formatter().parse(t)]`). -/
def fk (s : Str) : Except PubErr (List Str) := fkF (s.length + 1) s

/-- Fuelled model of `string.Template(t).substitute(**subs)`: `$$` is a
literal dollar, `${name}` and `$name` (idpattern `[A-Za-z_][A-Za-z0-9_]*`)
substitute the bound value (`KeyError` when unbound), anything else after `$`
raises `ValueError`.  Substituted values are not rescanned. -/
def tsubF (subs : List (Str × Str)) : Nat → Str → Except PubErr Str
  | 0, _ => .error .templateInvalid
  | _ + 1, [] => .ok []
  | f + 1, c :: rest =>
    if c = '$' then
      match rest with
      | [] => .error .templateInvalid
      | c2 :: r =>
        if c2 = '$' then
          match tsubF subs f r with
          | .ok t => .ok ('$' :: t)
          | .error e => .error e
        else if c2 = '{' then
          match r with
          | [] => .error .templateInvalid
          | c3 :: r1 =>
            if idStart c3 then
              let name := c3 :: r1.takeWhile idChar
              let r2 := r1.dropWhile idChar
              match r2 with
              | [] => .error .templateInvalid
              | c4 :: r3 =>
                if c4 = '}' then
                  match lookupA subs name with
                  | some v =>
                    match tsubF subs f r3 with
                    | .ok t => .ok (v ++ t)
                    | .error e => .error e
                  | none => .error (.missingField name)
                else .error .templateInvalid
            else .error .templateInvalid
        else if idStart c2 then
          let name := c2 :: r.takeWhile idChar
          let r1 := r.dropWhile idChar
          match lookupA subs name with
          | some v =>
            match tsubF subs f r1 with
            | .ok t => .ok (v ++ t)
            | .error e => .error e
          | none => .error (.missingField name)
        else .error .templateInvalid
    else
      match tsubF subs f rest with
      | .ok t => .ok (c :: t)
      | .error e => .error e

/-- Template substitution (`Template(_template).substitute(**subs)`). -/
def tsub (subs : List (Str × Str)) (s : Str) : Except PubErr Str :=
  tsubF subs (s.length + 1) s

/-- The `template` argument reaching `get_path` from `process`: a string when
`upload_options` supplies `path_template`, otherwise the `{}` default of
`upload_options.get("path_template", {})`. -/
inductive TemplateArg where
  | strT (s : Str)
  | dict
deriving DecidableEq

/-! ### The Publish task itself (task.py) -/

/-- Resolution of one template key against an item, task.py lines 51-64:
`collection` and `id` read the top-level fields, `year`/`month`/`day` parse
`properties.datetime`, anything else reads `properties` under the
colon-restored key.  The value is already rendered to the string
`Template.substitute` will splice in. -/
def resolveKey (item : Item) (key : Str) : Except PubErr Str :=
  if key == str "collection" then
    match item.collection with
    | some v => .ok v
    | none => .error (.missingField (str "collection"))
  else if key == str "id" then
    match item.id with
    | some v => .ok v
    | none => .error (.missingField (str "id"))
  else if key == str "year" || key == str "month" || key == str "day" then
    match lookupA item.properties (str "datetime") with
    | none => .error (.missingField (str "datetime"))
    | some (.s ds) =>
      match parseDateYMD ds with
      | none => .error .invalidDate
      | some (y, m, d) =>
        .ok (natToStr (if key == str "year" then y else if key == str "month" then m else d))
    | some _ => .error .invalidDate
  else
    match lookupA item.properties (unescape key) with
    | some v => .ok (propToStr v)
    | none => .error (.missingField (unescape key))

/-- Sequential resolution of all collected keys (the `for key in ...` loop). -/
def buildSubs (item : Item) : List Str → Except PubErr (List (Str × Str))
  | [] => .ok []
  | k :: ks =>
    match resolveKey item k with
    | .error e => .error e
    | .ok v =>
      match buildSubs item ks with
      | .ok rest => .ok ((k, v) :: rest)
      | .error e => .error e

/-- `Publish.get_path` (task.py lines 36-65): escape colons, collect keys from
the slash-rstripped template, resolve them, substitute, restore colons.  The
`dict` argument (the `{}` default from `process`) has no `replace` method and
raises `AttributeError`. -/
def get_path (item : Item) (template : TemplateArg) : Except PubErr Str :=
  match template with
  | .dict => .error .attributeError
  | .strT tmpl =>
    let t := escColons tmpl
    match fk (rstripSlashes t) with
    | .error e => .error e
    | .ok keys =>
      match buildSubs item keys with
      | .error e => .error e
      | .ok subs =>
        match tsub subs t with
        | .error e => .error e
        | .ok out => .ok (unescape out)

/-- Models `boto3utils.s3.s3_to_https`: `s3://bucket/key` becomes the
equivalent HTTPS form. -/
def s3ToHttps (u : Str) : Str :=
  let rest := u.drop 5
  let bucket := rest.takeWhile (fun c => !(c == '/'))
  let key := (rest.dropWhile (fun c => !(c == '/'))).drop 1
  str "https://" ++ bucket ++ str ".s3.amazonaws.com/" ++ key

/-- `Publish.update_links` (task.py lines 67-98): build the URL from the
resolved path plus `<id>.json`, prefix the bucket unless already an `s3://`
URL, optionally convert to HTTPS, drop existing self/canonical links and push
a canonical then a self link at the front. -/
def update_links (item : Item) (template : TemplateArg) (bucket : Str) (pub : Bool) :
    Except PubErr (Item × Str) :=
  match get_path item template with
  | .error e => .error e
  | .ok p =>
    match item.id with
    | none => .error (.missingField (str "id"))
    | some idv =>
      let url0 := joinPath p (idv ++ str ".json")
      let url1 :=
        if url0.take 5 == str "s3://" then url0
        else str "s3://" ++ bucket ++ '/' :: lstripSlashes url0
      let url := if pub then s3ToHttps url1 else url1
      let keep := item.links.filter (fun l => !(l.rel == str "self" || l.rel == str "canonical"))
      let links' : List Link :=
        { rel := str "self", href := url, type := some (str "application/json") } ::
        { rel := str "canonical", href := url, type := some (str "application/json") } :: keep
      .ok ({ item with links := links' }, url)

/-- `Publish.update_item_dates` (task.py lines 100-121): `updated := now`;
`created` is the prior object's `properties.created` when one exists at `url`
and has that key, else `now`.  The store is the pair exists/read_json as one
partial map. -/
def update_item_dates (store : Str → Option Item) (now : Str) (item : Item) (url : Str) : Item :=
  let created : Option PropVal :=
    match store url with
    | some old => lookupA old.properties (str "created")
    | none => none
  let createdV := match created with | some v => v | none => PropVal.s now
  { item with
      properties := setA (setA item.properties (str "created") createdV) (str "updated")
        (PropVal.s now) }

/-- The record of one store write performed by `Publish.publish_item_to_s3`
(task.py lines 123-138): target URL, uploaded item, extra headers (caller
headers merged over the ContentType default), and the public flag. -/
structure WriteRec where
  url : Str
  item : Item
  extra : List (Str × Str)
  pub : Bool
deriving DecidableEq

/-- `Publish.publish_item_to_s3` as the write record it sends to the store. -/
def publish_item_to_s3 (item : Item) (url : Str) (headers : List (Str × Str)) (pub : Bool) :
    WriteRec :=
  { url := url, item := item,
    extra := updateD [(str "ContentType", str "application/json")] headers, pub := pub }

/-- The `for item in items` loop of `Publish.process` (task.py lines 170-184):
links, dates, optional validation (failure raises before the write and aborts
the batch), then the write.  Returns the processed items or the first error,
together with the list of writes that reached the store. -/
def processItems (store : Str → Option Item) (now : Str) (validate : Item → Bool)
    (firstMsg : Item → Str) (tmpl : TemplateArg) (bucket : Str) (pub stacv : Bool)
    (headers : List (Str × Str)) : List Item → Except PubErr (List Item) × List WriteRec
  | [] => (.ok [], [])
  | item :: rest =>
    match update_links item tmpl bucket pub with
    | .error e => (.error e, [])
    | .ok (li, url) =>
      let mi := update_item_dates store now li url
      if stacv && !validate mi then
        (.error (.validationFailed (firstMsg mi)), [])
      else
        let w := publish_item_to_s3 mi url headers pub
        match processItems store now validate firstMsg tmpl bucket pub stacv headers rest with
        | (.ok ms, ws) => (.ok (mi :: ms), w :: ws)
        | (.error e, ws) => (.error e, w :: ws)

/-- The payload configuration `process` reads: `upload_options.path_template`
(absent means the `{}` default), `upload_options.headers`, and the
`tasks.publish` options `public` / `stac_validate`. -/
structure Cfg where
  path_template : Option Str
  headers : List (Str × Str)
  publicOpt : Option Bool
  stacValidateOpt : Option Bool
deriving DecidableEq

/-- `Publish.process` (task.py lines 140-189): its `public`/`stac_validate`
parameters are immediately shadowed by the payload configuration
(`config.get("public", False)`, `config.get("stac_validate", True)`), the
template comes from `upload_options.get("path_template", {})`, and the batch
loop runs over the items. -/
def process (store : Str → Option Item) (now : Str) (validate : Item → Bool)
    (firstMsg : Item → Str) (bucket : Str) (cfg : Cfg) (items : List Item)
    (pub0 stacv0 : Bool) : Except PubErr (List Item) × List WriteRec :=
  let pub := cfg.publicOpt.getD false
  let stacv := cfg.stacValidateOpt.getD true
  let tmpl : TemplateArg :=
    match cfg.path_template with
    | some s => .strT s
    | none => .dict
  processItems store now validate firstMsg tmpl bucket pub stacv cfg.headers items

/-- The template `process` effectively hands to `get_path`. -/
def effTmpl (cfg : Cfg) : TemplateArg :=
  match cfg.path_template with
  | some s => .strT s
  | none => .dict

/-- The `public` flag `process` effectively uses. -/
def effPub (cfg : Cfg) : Bool := cfg.publicOpt.getD false

/-- The `stac_validate` flag `process` effectively uses. -/
def effStacv (cfg : Cfg) : Bool := cfg.stacValidateOpt.getD true

/-- The transformation one record undergoes before validation and upload:
link rewriting followed by date reconciliation (loop body, task.py 171-175). -/
def stepItem (store : Str → Option Item) (now : Str) (tmpl : TemplateArg) (bucket : Str)
    (pub : Bool) (x : Item) : Except PubErr (Item × Str) :=
  match update_links x tmpl bucket pub with
  | .error e => .error e
  | .ok (li, url) => .ok (update_item_dates store now li url, url)

/-- The write the loop performs for a record that passes validation. -/
def stepWrite (store : Str → Option Item) (now : Str) (tmpl : TemplateArg) (bucket : Str)
    (pub : Bool) (headers : List (Str × Str)) (x : Item) : WriteRec :=
  match stepItem store now tmpl bucket pub x with
  | .ok (mi, url) => publish_item_to_s3 mi url headers pub
  | .error _ => { url := [], item := x, extra := [], pub := pub }

/-- Stripping one trailing slash, the normal form the spec describes for the
resolved directory before the `<id>.json` segment is appended. -/
def stripSlashOnce (s : Str) : Str :=
  if s.getLast? = some '/' then s.dropLast else s

/-! ### Association list lemmas -/

theorem lookupA_setA_self {α : Type} (l : List (Str × α)) (k : Str) (v : α) :
    lookupA (setA l k v) k = some v := by
  induction l with
  | nil => simp [setA, lookupA]
  | cons p t ih =>
    obtain ⟨k', w⟩ := p
    by_cases h : k' = k
    · subst h; simp [setA, lookupA]
    · simp only [setA, lookupA, beq_iff_eq, if_neg h]
      exact ih

theorem lookupA_setA_ne {α : Type} (l : List (Str × α)) (k k' : Str) (v : α) (h : k' ≠ k) :
    lookupA (setA l k v) k' = lookupA l k' := by
  induction l with
  | nil => simp [setA, lookupA, beq_iff_eq, Ne.symm h]
  | cons p t ih =>
    obtain ⟨k₀, w⟩ := p
    by_cases h0 : k₀ = k
    · subst h0
      simp [setA, lookupA, beq_iff_eq, Ne.symm h]
    · simp only [setA, lookupA, beq_iff_eq, if_neg h0]
      by_cases h1 : k₀ = k'
      · simp [h1]
      · simp [h1, ih]

/-! ### C2: timestamp reconciliation -/

/-- C2: `update_item_dates` always sets `properties.updated` to the current
instant; `properties.created` is taken from the prior object's `created` when
an object exists at the URL and has one, and falls back to the current instant
when the object is absent or lacks `created`; in particular a fresh publish
yields `created` equal to `updated`. -/
theorem claim2_update_item_dates (store : Str → Option Item) (now : Str) (item : Item)
    (url : Str) :
    lookupA (update_item_dates store now item url).properties (str "updated")
        = some (.s now)
    ∧ (store url = none →
        lookupA (update_item_dates store now item url).properties (str "created")
          = some (.s now))
    ∧ (∀ old v, store url = some old → lookupA old.properties (str "created") = some v →
        lookupA (update_item_dates store now item url).properties (str "created") = some v)
    ∧ (∀ old, store url = some old → lookupA old.properties (str "created") = none →
        lookupA (update_item_dates store now item url).properties (str "created")
          = some (.s now))
    ∧ (store url = none →
        lookupA (update_item_dates store now item url).properties (str "created")
          = lookupA (update_item_dates store now item url).properties (str "updated")) := by
  have hne : str "created" ≠ str "updated" := by decide
  have hupd : lookupA (update_item_dates store now item url).properties (str "updated")
      = some (.s now) := by
    simp [update_item_dates, lookupA_setA_self]
  have hcre : lookupA (update_item_dates store now item url).properties (str "created")
      = some (match (match store url with
                     | some old => lookupA old.properties (str "created")
                     | none => none) with
              | some v => v
              | none => PropVal.s now) := by
    simp [update_item_dates, lookupA_setA_ne _ _ _ _ hne, lookupA_setA_self]
  refine ⟨hupd, ?_, ?_, ?_, ?_⟩
  · intro h; rw [hcre, h]
  · intro old v h1 h2; rw [hcre, h1]; simp [h2]
  · intro old h1 h2; rw [hcre, h1]; simp [h2]
  · intro h; rw [hcre, h, hupd]

/-- Concrete instantiation of C2: republish on a URL whose stored object has
`created = "2020-01-01T00:00:00+00:00"` keeps it, and a fresh URL gets
`created = updated = now`. -/
theorem claim2_update_item_dates_witness :
    lookupA (update_item_dates
        (fun u => if u = str "s3://b/old.json"
          then some { collection := none, id := none,
                      properties := [(str "created", .s (str "2020-01-01T00:00:00+00:00"))],
                      links := [] }
          else none)
        (str "2026-10-12T00:00:00+00:00")
        { collection := none, id := some (str "x"), properties := [], links := [] }
        (str "s3://b/old.json")).properties (str "created")
      = some (.s (str "2020-01-01T00:00:00+00:00"))
    ∧ lookupA (update_item_dates (fun _ => none) (str "2026-10-12T00:00:00+00:00")
        { collection := none, id := some (str "x"), properties := [], links := [] }
        (str "s3://b/fresh.json")).properties (str "created")
      = lookupA (update_item_dates (fun _ => none) (str "2026-10-12T00:00:00+00:00")
        { collection := none, id := some (str "x"), properties := [], links := [] }
        (str "s3://b/fresh.json")).properties (str "updated") := by
  constructor
  · exact (claim2_update_item_dates _ _ _ _).2.2.1 _ _ (by rfl) (by rfl)
  · exact (claim2_update_item_dates _ _ _ _).2.2.2.2 rfl

/-! ### C5: the path_template default -/

/-- C5 (code bug): with `upload_options` lacking `path_template`, `process`
does not fall back to the documented default `${collection}/${id}`; the `{}`
default of `upload_options.get("path_template", {})` reaches
`template.replace` and raises `AttributeError` before anything is written,
even though resolving the documented default on the same item would succeed. -/
theorem claim5_default_template_bug :
    process (fun _ => none) (str "now") (fun _ => true) (fun _ => [])
        (str "BKT")
        { path_template := none, headers := [], publicOpt := none, stacValidateOpt := none }
        [{ collection := some (str "landsat"), id := some (str "scene001"),
           properties := [], links := [] }] false true
      = (.error .attributeError, [])
    ∧ get_path
        { collection := some (str "landsat"), id := some (str "scene001"),
          properties := [], links := [] } (.strT (str "${collection}/${id}"))
      = .ok (str "landsat/scene001") := by
  exact ⟨rfl, rfl⟩

/-! ### C9: the process parameters are dead -/

/-- C9: the `public` and `stac_validate` parameters of `process` are shadowed
by the payload configuration before use, so two calls differing only in those
arguments return identical results and store effects; the effective values
default to `public = false` and `stac_validate = true` when the payload's
`tasks.publish` configuration leaves them unset. -/
theorem claim9_process_params_dead (store : Str → Option Item) (now : Str)
    (validate : Item → Bool) (firstMsg : Item → Str) (bucket : Str) (cfg : Cfg)
    (items : List Item) (a₁ b₁ a₂ b₂ : Bool) :
    process store now validate firstMsg bucket cfg items a₁ b₁
      = process store now validate firstMsg bucket cfg items a₂ b₂
    ∧ process store now validate firstMsg bucket
        { cfg with publicOpt := none, stacValidateOpt := none } items a₁ b₁
      = process store now validate firstMsg bucket
        { cfg with publicOpt := some false, stacValidateOpt := some true } items a₁ b₁ := by
  exact ⟨rfl, rfl⟩

/-! ### C3: link rewriting -/

/-- The URL `update_links` computes from a resolved path and an item id. -/
def mkUrl (p idv bucket : Str) (pub : Bool) : Str :=
  let url0 := joinPath p (idv ++ str ".json")
  let url1 :=
    if url0.take 5 == str "s3://" then url0
    else str "s3://" ++ bucket ++ '/' :: lstripSlashes url0
  if pub then s3ToHttps url1 else url1

theorem resolveKey_irrel_links (item : Item) (L : List Link) (k : Str) :
    resolveKey { item with links := L } k = resolveKey item k := rfl

theorem buildSubs_irrel_links (item : Item) (L : List Link) (ks : List Str) :
    buildSubs { item with links := L } ks = buildSubs item ks := by
  induction ks with
  | nil => rfl
  | cons k ks ih =>
    simp only [buildSubs, resolveKey_irrel_links, ih]

theorem get_path_irrel_links (item : Item) (L : List Link) (t : TemplateArg) :
    get_path { item with links := L } t = get_path item t := by
  cases t with
  | dict => rfl
  | strT s =>
    simp only [get_path]
    rcases hfk : fk (rstripSlashes (escColons s)) with e | keys
    · rfl
    · dsimp only
      rw [buildSubs_irrel_links]

theorem update_links_eq (item : Item) (tmpl : TemplateArg) (bucket : Str) (pub : Bool)
    (p idv : Str) (hg : get_path item tmpl = .ok p) (hid : item.id = some idv) :
    update_links item tmpl bucket pub = .ok
      ({ item with links :=
          { rel := str "self", href := mkUrl p idv bucket pub,
            type := some (str "application/json") } ::
          { rel := str "canonical", href := mkUrl p idv bucket pub,
            type := some (str "application/json") } ::
          item.links.filter (fun l => !(l.rel == str "self" || l.rel == str "canonical")) },
       mkUrl p idv bucket pub) := by
  simp only [update_links, hg, hid, mkUrl]

theorem filter_keep_rel (links : List Link) (r : Str)
    (hr : r = str "self" ∨ r = str "canonical") :
    (links.filter (fun l => !(l.rel == str "self" || l.rel == str "canonical"))).filter
      (fun l => l.rel == r) = [] := by
  rw [List.filter_filter]
  apply List.filter_eq_nil_iff.mpr
  intro a _
  rcases hr with h | h <;> subst h <;>
    simp only [Bool.and_eq_true, beq_iff_eq, Bool.not_eq_true', Bool.or_eq_false_iff,
      beq_eq_false_iff_ne, ne_eq, not_and] <;>
    intro h1 h2 <;> simp_all

theorem filter_keep_keep (links : List Link) :
    (links.filter (fun l => !(l.rel == str "self" || l.rel == str "canonical"))).filter
      (fun l => !(l.rel == str "self" || l.rel == str "canonical"))
    = links.filter (fun l => !(l.rel == str "self" || l.rel == str "canonical")) := by
  rw [List.filter_filter]
  congr 1
  funext l
  rw [Bool.and_self]

/-- C3: after `update_links` the item's links hold exactly one `self` and one
`canonical` entry, both with the resolved URL as href and type
`application/json`; all other links keep their original relative order, and
re-applying `update_links` (which recomputes the same URL) returns the same
item and URL. -/
theorem claim3_update_links (item : Item) (tmpl : TemplateArg) (bucket : Str) (pub : Bool)
    (item' : Item) (url : Str)
    (h : update_links item tmpl bucket pub = .ok (item', url)) :
    (item'.links.filter (fun l => l.rel == str "self")).length = 1
    ∧ (item'.links.filter (fun l => l.rel == str "canonical")).length = 1
    ∧ (∀ l ∈ item'.links, (l.rel = str "self" ∨ l.rel = str "canonical") →
        l.href = url ∧ l.type = some (str "application/json"))
    ∧ item'.links.filter (fun l => !(l.rel == str "self" || l.rel == str "canonical"))
        = item.links.filter (fun l => !(l.rel == str "self" || l.rel == str "canonical"))
    ∧ update_links item' tmpl bucket pub = .ok (item', url) := by
  rcases hg : get_path item tmpl with e | p
  · rw [update_links, hg] at h; exact absurd h (by simp)
  · rcases hid : item.id with _ | idv
    · rw [update_links, hg, hid] at h; exact absurd h (by simp)
    · rw [update_links_eq item tmpl bucket pub p idv hg hid] at h
      rw [Except.ok.injEq, Prod.mk.injEq] at h
      obtain ⟨h1, h2⟩ := h
      have hlinks : item'.links =
          { rel := str "self", href := url, type := some (str "application/json") } ::
          { rel := str "canonical", href := url, type := some (str "application/json") } ::
          item.links.filter (fun l => !(l.rel == str "self" || l.rel == str "canonical")) := by
        rw [← h1, ← h2]
      have hg' : get_path item' tmpl = .ok p := by
        rw [← h1, get_path_irrel_links]; exact hg
      have hid' : item'.id = some idv := by
        rw [← h1]; exact hid
      have e1 : (str "self" == str "self") = true := by decide
      have e2 : (str "canonical" == str "self") = false := by decide
      have e3 : (str "self" == str "canonical") = false := by decide
      have e4 : (str "canonical" == str "canonical") = true := by decide
      have hkeep : item'.links.filter
          (fun l => !(l.rel == str "self" || l.rel == str "canonical"))
          = item.links.filter (fun l => !(l.rel == str "self" || l.rel == str "canonical")) := by
        rw [hlinks]
        simp [List.filter, e1, e2, e3, e4, filter_keep_keep]
      refine ⟨?_, ?_, ?_, hkeep, ?_⟩
      · rw [hlinks]
        simp [List.filter, e1, e2]
        intro a _ ha1 ha2
        exact absurd ha1 ha2
      · rw [hlinks]
        simp [List.filter, e3, e4]
        intro a _ ha1 _
        exact ha1
      · intro l hl hrel
        rw [hlinks] at hl
        rcases hl with _ | ⟨_, hl⟩
        · exact ⟨rfl, rfl⟩
        · rcases hl with _ | ⟨_, hl⟩
          · exact ⟨rfl, rfl⟩
          · exfalso
            have := (List.mem_filter.mp hl).2
            rcases hrel with h | h <;> rw [h] at this <;> simp at this
      · rw [update_links_eq item' tmpl bucket pub p idv hg' hid']
        rw [Except.ok.injEq, Prod.mk.injEq]
        refine ⟨?_, h2⟩
        rw [hkeep, h2, ← hlinks]

/-- The item the C3 witness starts from: stale self link plus a parent link. -/
def itW : Item :=
  { collection := some (str "c1"), id := some (str "i1"),
    properties := [],
    links := [{ rel := str "self", href := str "old", type := none },
              { rel := str "parent", href := str "p", type := none }] }

/-- The URL `update_links` computes for `itW`. -/
def urlW : Str := str "s3://BKT/c1/i1/i1.json"

/-- The item `update_links` produces from `itW`. -/
def itW' : Item :=
  { itW with links :=
      [{ rel := str "self", href := urlW, type := some (str "application/json") },
       { rel := str "canonical", href := urlW, type := some (str "application/json") },
       { rel := str "parent", href := str "p", type := none }] }

/-- Concrete instantiation of C3 on an item that already carries a stale self
link and an unrelated link. -/
theorem claim3_update_links_witness :
    (itW'.links.filter (fun l => l.rel == str "self")).length = 1
    ∧ itW'.links.filter (fun l => !(l.rel == str "self" || l.rel == str "canonical"))
        = itW.links.filter (fun l => !(l.rel == str "self" || l.rel == str "canonical"))
    ∧ update_links itW' (.strT (str "${collection}/${id}")) (str "BKT") false
        = .ok (itW', urlW) := by
  have h := claim3_update_links itW (.strT (str "${collection}/${id}")) (str "BKT") false
    itW' urlW rfl
  exact ⟨h.1, h.2.2.2.1, h.2.2.2.2⟩

/-! ### C4: the default template shape and the appended id segment -/

/-- C4: resolving `${collection}/${id}` for `collection = "landsat"`,
`id = "scene001"` gives `landsat/scene001`, and appending `scene001.json`
yields the storage key `landsat/scene001/scene001.json`; in general the final
key is the resolved directory with one trailing slash stripped, followed by
`/<id>.json`. -/
theorem claim4_path_shape :
    (∀ (item : Item) (tmpl : TemplateArg) (p idv : Str),
      get_path item tmpl = .ok p → p ≠ [] → item.id = some idv → idv.head? ≠ some '/' →
      joinPath p (idv ++ str ".json") = stripSlashOnce p ++ '/' :: (idv ++ str ".json"))
    ∧ get_path
        { collection := some (str "landsat"), id := some (str "scene001"),
          properties := [], links := [] } (.strT (str "${collection}/${id}"))
        = .ok (str "landsat/scene001")
    ∧ joinPath (str "landsat/scene001") (str "scene001.json")
        = str "landsat/scene001/scene001.json" := by
  refine ⟨?_, rfl, rfl⟩
  intro item tmpl p idv _ hp _ hhead
  have hb : (idv ++ str ".json").head? ≠ some '/' := by
    cases idv with
    | nil => simp [str]
    | cons c cs => simpa using hhead
  simp only [joinPath, stripSlashOnce]
  rw [if_neg hb]
  rcases hlast : p.getLast? with _ | c
  · rw [if_neg (by simp [hp]), if_neg (by simp)]
  · by_cases hc : c = '/'
    · subst hc
      rw [if_pos (Or.inr rfl), if_pos rfl]
      have hg : p.getLast hp = '/' := by
        have h0 := List.getLast?_eq_getLast p hp
        rw [hlast] at h0
        exact (Option.some.inj h0).symm
      have hsplit : p = p.dropLast ++ ['/'] := by
        conv_lhs => rw [← List.dropLast_append_getLast hp]
        rw [hg]
      conv_lhs => rw [hsplit]
      simp
    · rw [if_neg (by simp [hp, hc]), if_neg (by simp [hc])]

/-- Concrete instantiation of the general part of C4 on a template that ends
with a slash. -/
theorem claim4_path_shape_witness :
    joinPath (str "dir/") (str "scene001" ++ str ".json")
      = stripSlashOnce (str "dir/") ++ '/' :: (str "scene001" ++ str ".json") := by
  exact claim4_path_shape.1
    { collection := none, id := some (str "scene001"),
      properties := [(str "d", .s (str "dir/"))], links := [] }
    (.strT (str "${d}")) (str "dir/") (str "scene001") rfl (by decide) rfl (by decide)

/-! ### The fail-fast batch loop: C1, C7, C8 -/

/-- `process` is the loop run with the effective configuration values. -/
theorem process_eq (store : Str → Option Item) (now : Str) (validate : Item → Bool)
    (firstMsg : Item → Str) (bucket : Str) (cfg : Cfg) (items : List Item) (a b : Bool) :
    process store now validate firstMsg bucket cfg items a b
      = processItems store now validate firstMsg (effTmpl cfg) bucket (effPub cfg)
          (effStacv cfg) cfg.headers items := rfl

/-- A record aborts the loop with error `e` when its transformation fails with
`e`, or when it transforms but fails validation (with validation enabled) and
`e` is the resulting validation error. -/
def abortsWith (store : Str → Option Item) (now : Str) (validate : Item → Bool)
    (firstMsg : Item → Str) (tmpl : TemplateArg) (bucket : Str) (pub stacv : Bool)
    (bad : Item) (e : PubErr) : Prop :=
  stepItem store now tmpl bucket pub bad = .error e
  ∨ ∃ mi url, stepItem store now tmpl bucket pub bad = .ok (mi, url)
      ∧ (stacv && !validate mi) = true ∧ e = .validationFailed (firstMsg mi)

/-- The loop on a batch whose prefix succeeds and whose next record aborts:
exactly the prefix is written, the rest is not, and the abort error is
returned. -/
theorem processItems_abort (store : Str → Option Item) (now : Str) (validate : Item → Bool)
    (firstMsg : Item → Str) (tmpl : TemplateArg) (bucket : Str) (pub stacv : Bool)
    (headers : List (Str × Str)) (pre post : List Item) (bad : Item) (e : PubErr)
    (hpre : ∀ x ∈ pre, ∃ mi url, stepItem store now tmpl bucket pub x = .ok (mi, url)
        ∧ (stacv && !validate mi) = false)
    (hbad : abortsWith store now validate firstMsg tmpl bucket pub stacv bad e) :
    processItems store now validate firstMsg tmpl bucket pub stacv headers
        (pre ++ bad :: post)
      = (.error e, pre.map (stepWrite store now tmpl bucket pub headers)) := by
  induction pre with
  | nil =>
    simp only [List.nil_append, List.map_nil]
    rcases hbad with hb | ⟨mi, url, hb, hcond, he⟩
    · rcases hu : update_links bad tmpl bucket pub with e' | ⟨li, u⟩
      · rw [stepItem, hu] at hb
        rw [processItems, hu]
        exact congrArg (fun z => (Except.error z, ([] : List WriteRec))) (Except.error.inj hb)
      · rw [stepItem, hu] at hb
        exact absurd hb (by simp)
    · rcases hu : update_links bad tmpl bucket pub with e' | ⟨li, u⟩
      · rw [stepItem, hu] at hb
        exact absurd hb (by simp)
      · rw [stepItem, hu] at hb
        rw [Except.ok.injEq, Prod.mk.injEq] at hb
        obtain ⟨hb1, hb2⟩ := hb
        rw [processItems, hu]
        dsimp only
        rw [hb1, hcond, he]
        simp
  | cons x pre' ih =>
    obtain ⟨mi, url, hx, hcond⟩ := hpre x (List.mem_cons_self x pre')
    have hpre' : ∀ y ∈ pre', ∃ mi url, stepItem store now tmpl bucket pub y = .ok (mi, url)
        ∧ (stacv && !validate mi) = false :=
      fun y hy => hpre y (List.mem_cons_of_mem x hy)
    rcases hu : update_links x tmpl bucket pub with e' | ⟨li, u⟩
    · rw [stepItem, hu] at hx
      exact absurd hx (by simp)
    · rw [stepItem, hu] at hx
      rw [Except.ok.injEq, Prod.mk.injEq] at hx
      obtain ⟨hx1, hx2⟩ := hx
      have ihe := ih hpre'
      rw [List.cons_append, processItems, hu]
      dsimp only
      rw [hx1, hcond]
      simp only [Bool.false_eq_true, if_false, ihe, List.map_cons]
      have hw : stepWrite store now tmpl bucket pub headers x
          = publish_item_to_s3 mi u headers pub := by
        rw [stepWrite, stepItem, hu]
        dsimp only
        rw [hx1]
      rw [hw, hx2]

/-- Shared consequence of `processItems_abort` for a validation failure at a
given position of the batch, phrased on `process`. -/
theorem process_validation_abort (store : Str → Option Item) (now : Str)
    (validate : Item → Bool) (firstMsg : Item → Str) (bucket : Str) (cfg : Cfg)
    (a b : Bool) (pre post : List Item) (bad mb : Item) (urlb : Str)
    (hstacv : effStacv cfg = true)
    (hpre : ∀ x ∈ pre, ∃ mi url,
        stepItem store now (effTmpl cfg) bucket (effPub cfg) x = .ok (mi, url)
        ∧ validate mi = true)
    (hbad : stepItem store now (effTmpl cfg) bucket (effPub cfg) bad = .ok (mb, urlb))
    (hfail : validate mb = false) :
    process store now validate firstMsg bucket cfg (pre ++ bad :: post) a b
      = (.error (.validationFailed (firstMsg mb)),
         pre.map (stepWrite store now (effTmpl cfg) bucket (effPub cfg) cfg.headers)) := by
  rw [process_eq]
  apply processItems_abort
  · intro x hx
    obtain ⟨mi, url, h1, h2⟩ := hpre x hx
    exact ⟨mi, url, h1, by rw [h2]; simp⟩
  · exact Or.inr ⟨mb, urlb, hbad, by rw [hstacv, hfail]; simp, rfl⟩

/-- C1: with `stac_validate` enabled, when every record before position `i`
transforms and validates and the record at position `i` transforms but fails
schema validation, `process` writes exactly the records before `i` to the
store, writes neither record `i` nor any later record, and raises the
validation error carrying the validator's first diagnostic message. -/
theorem claim1_fail_fast (store : Str → Option Item) (now : Str) (validate : Item → Bool)
    (firstMsg : Item → Str) (bucket : Str) (cfg : Cfg) (a b : Bool)
    (pre post : List Item) (bad mb : Item) (urlb : Str)
    (hstacv : effStacv cfg = true)
    (hpre : ∀ x ∈ pre, ∃ mi url,
        stepItem store now (effTmpl cfg) bucket (effPub cfg) x = .ok (mi, url)
        ∧ validate mi = true)
    (hbad : stepItem store now (effTmpl cfg) bucket (effPub cfg) bad = .ok (mb, urlb))
    (hfail : validate mb = false) :
    process store now validate firstMsg bucket cfg (pre ++ bad :: post) a b
      = (.error (.validationFailed (firstMsg mb)),
         pre.map (stepWrite store now (effTmpl cfg) bucket (effPub cfg) cfg.headers)) :=
  process_validation_abort store now validate firstMsg bucket cfg a b pre post bad mb urlb
    hstacv hpre hbad hfail

/-- Concrete instantiation of C1: a 3-record batch whose second record fails
validation writes only the first record and surfaces the diagnostic. -/
theorem claim1_fail_fast_witness :
    process (fun _ => none) (str "now") (fun it => it.id != some (str "b2"))
        (fun _ => str "invalid geometry") (str "BKT")
        { path_template := some (str "${id}"), headers := [],
          publicOpt := none, stacValidateOpt := some true }
        [{ collection := none, id := some (str "a1"), properties := [], links := [] },
         { collection := none, id := some (str "b2"), properties := [], links := [] },
         { collection := none, id := some (str "c3"), properties := [], links := [] }]
        false true
      = (.error (.validationFailed (str "invalid geometry")),
         [({ collection := none, id := some (str "a1"), properties := [], links := [] } :
            Item)].map
           (stepWrite (fun _ => none) (str "now")
             (effTmpl
               { path_template := some (str "${id}"), headers := [],
                 publicOpt := none, stacValidateOpt := some true })
             (str "BKT")
             (effPub
               { path_template := some (str "${id}"), headers := [],
                 publicOpt := none, stacValidateOpt := some true })
             [])) := by
  apply claim1_fail_fast (fun _ => none) (str "now") (fun it => it.id != some (str "b2"))
    (fun _ => str "invalid geometry") (str "BKT")
    { path_template := some (str "${id}"), headers := [],
      publicOpt := none, stacValidateOpt := some true }
    false true
    [{ collection := none, id := some (str "a1"), properties := [], links := [] }]
    [{ collection := none, id := some (str "c3"), properties := [], links := [] }]
    { collection := none, id := some (str "b2"), properties := [], links := [] }
    _ _ rfl
  · intro x hx
    rcases hx with _ | ⟨_, hx⟩
    · exact ⟨_, _, rfl, rfl⟩
    · cases hx
  · exact rfl
  · exact rfl

/-- C7: a template placeholder naming a property the record lacks makes path
resolution fail with the missing-field error (Python `KeyError` carrying the
colon-restored name), and neither that record nor any later record is
written; concretely, `${eo:cloud_cover}` on a record without that property
fails with `missingField "eo:cloud_cover"`. -/
theorem claim7_missing_field (store : Str → Option Item) (now : Str) (validate : Item → Bool)
    (firstMsg : Item → Str) (bucket : Str) (cfg : Cfg) (a b : Bool)
    (pre post : List Item) (bad : Item) (k : Str)
    (hpre : ∀ x ∈ pre, ∃ mi url,
        stepItem store now (effTmpl cfg) bucket (effPub cfg) x = .ok (mi, url)
        ∧ (effStacv cfg && !validate mi) = false)
    (hbad : stepItem store now (effTmpl cfg) bucket (effPub cfg) bad
        = .error (.missingField k)) :
    process store now validate firstMsg bucket cfg (pre ++ bad :: post) a b
      = (.error (.missingField k),
         pre.map (stepWrite store now (effTmpl cfg) bucket (effPub cfg) cfg.headers))
    ∧ get_path
        { collection := some (str "c"), id := some (str "i"), properties := [], links := [] }
        (.strT (str "${eo:cloud_cover}"))
      = .error (.missingField (str "eo:cloud_cover")) := by
  constructor
  · rw [process_eq]
    exact processItems_abort _ _ _ _ _ _ _ _ _ pre post bad _ hpre (Or.inl hbad)
  · rfl

/-- Concrete instantiation of C7: a 2-record batch whose first record hits
the missing property produces no writes at all. -/
theorem claim7_missing_field_witness :
    process (fun _ => none) (str "now") (fun _ => true) (fun _ => [])
        (str "BKT")
        { path_template := some (str "${eo:cloud_cover}"), headers := [],
          publicOpt := none, stacValidateOpt := none }
        [{ collection := some (str "c"), id := some (str "i"), properties := [], links := [] },
         { collection := some (str "c"), id := some (str "j"), properties := [], links := [] }]
        false true
      = (.error (.missingField (str "eo:cloud_cover")), []) := by
  have h := (claim7_missing_field (fun _ => none) (str "now") (fun _ => true) (fun _ => [])
    (str "BKT")
    { path_template := some (str "${eo:cloud_cover}"), headers := [],
      publicOpt := none, stacValidateOpt := none }
    false true
    []
    [{ collection := some (str "c"), id := some (str "j"), properties := [], links := [] }]
    { collection := some (str "c"), id := some (str "i"), properties := [], links := [] }
    (str "eo:cloud_cover")
    (by intro x hx; cases hx)
    rfl).1
  simpa using h

/-- C8 counterexample: the error aborting a publish whose only record (id
`ITEM123`, collection `COLL77`) fails validation is the validation exception,
whose message contains the diagnostic but neither the record's identifier nor
its collection. -/
theorem claim8_no_identity_in_error :
    (process (fun _ => none) (str "now") (fun _ => false)
        (fun _ => str "invalid geometry") (str "BKT")
        { path_template := some (str "${id}"), headers := [],
          publicOpt := none, stacValidateOpt := none }
        [{ collection := some (str "COLL77"), id := some (str "ITEM123"),
           properties := [], links := [] }]
        false true).1
      = .error (.validationFailed (str "invalid geometry"))
    ∧ containsSub (str "ITEM123")
        (errMessage (.validationFailed (str "invalid geometry"))) = false
    ∧ containsSub (str "COLL77")
        (errMessage (.validationFailed (str "invalid geometry"))) = false := by
  exact ⟨rfl, rfl, rfl⟩

/-- C8 (amended): the abort error of a failing batch carries, for a
validation failure, the validator's first diagnostic message inside the fixed
exception text, but no record identifier or collection. -/
theorem claim8_error_contents (store : Str → Option Item) (now : Str)
    (validate : Item → Bool) (firstMsg : Item → Str) (bucket : Str) (cfg : Cfg)
    (a b : Bool) (pre post : List Item) (bad mb : Item) (urlb : Str)
    (hstacv : effStacv cfg = true)
    (hpre : ∀ x ∈ pre, ∃ mi url,
        stepItem store now (effTmpl cfg) bucket (effPub cfg) x = .ok (mi, url)
        ∧ validate mi = true)
    (hbad : stepItem store now (effTmpl cfg) bucket (effPub cfg) bad = .ok (mb, urlb))
    (hfail : validate mb = false) :
    (process store now validate firstMsg bucket cfg (pre ++ bad :: post) a b).1
      = .error (.validationFailed (firstMsg mb))
    ∧ errMessage (.validationFailed (firstMsg mb))
      = str "STAC Item validation failed. Error: " ++ firstMsg mb ++ [ '.' ] := by
  constructor
  · rw [process_validation_abort store now validate firstMsg bucket cfg a b pre post bad mb
      urlb hstacv hpre hbad hfail]
  · rfl

/-- Concrete instantiation of the amended C8. -/
theorem claim8_error_contents_witness :
    (process (fun _ => none) (str "now") (fun _ => false)
        (fun _ => str "invalid geometry") (str "BKT")
        { path_template := some (str "${id}"), headers := [],
          publicOpt := none, stacValidateOpt := none }
        [{ collection := some (str "COLL77"), id := some (str "ITEM123"),
           properties := [], links := [] }]
        false true).1
      = .error (.validationFailed (str "invalid geometry")) := by
  exact (claim8_error_contents (fun _ => none) (str "now") (fun _ => false)
    (fun _ => str "invalid geometry") (str "BKT")
    { path_template := some (str "${id}"), headers := [],
      publicOpt := none, stacValidateOpt := none }
    false true [] []
    { collection := some (str "COLL77"), id := some (str "ITEM123"),
      properties := [], links := [] }
    _ _ rfl (by intro x hx; cases hx) rfl rfl).1

/-! ### C6: date-derived placeholders -/

theorem digitC_mem (n : Nat) :
    digitC n ∈ ['0', '1', '2', '3', '4', '5', '6', '7', '8', '9'] := by
  unfold digitC
  rcases Nat.lt_or_ge n 10 with h | h
  · rw [List.getD_eq_getElem _ _ (by simpa using h)]
    exact List.getElem_mem _
  · rw [List.getD_eq_default _ _ (by simpa using h)]
    decide

theorem natToStrF_digits (f n : Nat) (c : Char) (hc : c ∈ natToStrF f n) :
    c ∈ ['0', '1', '2', '3', '4', '5', '6', '7', '8', '9'] := by
  induction f generalizing n with
  | zero => simp [natToStrF] at hc
  | succ f ih =>
    rw [natToStrF] at hc
    by_cases h : n < 10
    · rw [if_pos h] at hc
      rcases hc with _ | ⟨_, hc⟩
      · exact digitC_mem n
      · cases hc
    · rw [if_neg h] at hc
      rcases List.mem_append.mp hc with hc | hc
      · exact ih _ hc
      · rcases hc with _ | ⟨_, hc⟩
        · exact digitC_mem _
        · cases hc

theorem natToStr_no_underscore (n : Nat) (c : Char) (hc : c ∈ natToStr n) : c ≠ '_' := by
  have h := natToStrF_digits (n + 1) n c hc
  intro he
  rw [he] at h
  exact absurd h (by decide)

theorem unescapeF_no_underscore (f : Nat) (s : Str) (h : ∀ c ∈ s, c ≠ '_') :
    unescapeF f s = s := by
  induction f generalizing s with
  | zero => rfl
  | succ f ih =>
    cases s with
    | nil => rfl
    | cons c cs =>
      have hc : c ≠ '_' := h c (List.mem_cons_self c cs)
      have hpre : isPre escSeq (c :: cs) = false := by
        have : (('_' : Char) == c) = false := by
          simp [beq_iff_eq]
          exact fun he => hc he.symm
        simp [escSeq, str, isPre, this]
      rw [unescapeF, hpre]
      simp only [Bool.false_eq_true, if_false]
      rw [ih cs (fun x hx => h x (List.mem_cons_of_mem c hx))]

theorem unescape_no_underscore (s : Str) (h : ∀ c ∈ s, c ≠ '_') : unescape s = s :=
  unescapeF_no_underscore s.length s h

/-- C6: the template `${year}/${month}/${day}/${id}` resolves using unpadded
integer components of `properties.datetime`: concretely
`2021-03-05T00:00:00Z` with id `x` yields `2021/3/5/x`, and appending
`x.json` gives `2021/3/5/x/x.json`; in general, when the datetime parses as
`(y, m, d)` and the id has no underscore, the resolved path is
`str(y)/str(m)/str(d)/<id>`. -/
theorem claim6_date_template :
    get_path
        { collection := none, id := some (str "x"),
          properties := [(str "datetime", .s (str "2021-03-05T00:00:00Z"))], links := [] }
        (.strT (str "${year}/${month}/${day}/${id}"))
      = .ok (str "2021/3/5/x")
    ∧ joinPath (str "2021/3/5/x") (str "x" ++ str ".json") = str "2021/3/5/x/x.json"
    ∧ (∀ (item : Item) (ds idv : Str) (y m d : Nat),
        lookupA item.properties (str "datetime") = some (.s ds) →
        parseDateYMD ds = some (y, m, d) →
        item.id = some idv →
        (∀ c ∈ idv, c ≠ '_') →
        get_path item (.strT (str "${year}/${month}/${day}/${id}"))
          = .ok (natToStr y ++ '/' ::
              (natToStr m ++ '/' :: (natToStr d ++ '/' :: (idv ++ []))))) := by
  refine ⟨rfl, rfl, ?_⟩
  intro item ds idv y m d hds hp hid hidu
  have h1 : resolveKey item (str "year") = .ok (natToStr y) := by
    have h0 : resolveKey item (str "year")
        = (match lookupA item.properties (str "datetime") with
           | none => .error (.missingField (str "datetime"))
           | some (.s ds') =>
             match parseDateYMD ds' with
             | none => .error .invalidDate
             | some (y', _, _) => .ok (natToStr y')
           | some _ => .error .invalidDate) := rfl
    rw [h0, hds]
    dsimp only
    rw [hp]
  have h2 : resolveKey item (str "month") = .ok (natToStr m) := by
    have h0 : resolveKey item (str "month")
        = (match lookupA item.properties (str "datetime") with
           | none => .error (.missingField (str "datetime"))
           | some (.s ds') =>
             match parseDateYMD ds' with
             | none => .error .invalidDate
             | some (_, m', _) => .ok (natToStr m')
           | some _ => .error .invalidDate) := rfl
    rw [h0, hds]
    dsimp only
    rw [hp]
  have h3 : resolveKey item (str "day") = .ok (natToStr d) := by
    have h0 : resolveKey item (str "day")
        = (match lookupA item.properties (str "datetime") with
           | none => .error (.missingField (str "datetime"))
           | some (.s ds') =>
             match parseDateYMD ds' with
             | none => .error .invalidDate
             | some (_, _, d') => .ok (natToStr d')
           | some _ => .error .invalidDate) := rfl
    rw [h0, hds]
    dsimp only
    rw [hp]
  have h4 : resolveKey item (str "id") = .ok idv := by
    have h0 : resolveKey item (str "id")
        = (match item.id with
           | some v => .ok v
           | none => .error (.missingField (str "id"))) := rfl
    rw [h0, hid]
  have hbs : buildSubs item [str "year", str "month", str "day", str "id"]
      = .ok [(str "year", natToStr y), (str "month", natToStr m),
             (str "day", natToStr d), (str "id", idv)] := by
    simp only [buildSubs, h1, h2, h3, h4]
  have hgp : get_path item (.strT (str "${year}/${month}/${day}/${id}"))
      = (match buildSubs item [str "year", str "month", str "day", str "id"] with
         | .error e => .error e
         | .ok subs =>
           match tsub subs (str "${year}/${month}/${day}/${id}") with
           | .error e => .error e
           | .ok out => .ok (unescape out)) := rfl
  rw [hgp, hbs]
  dsimp only
  have hts : tsub [(str "year", natToStr y), (str "month", natToStr m),
        (str "day", natToStr d), (str "id", idv)] (str "${year}/${month}/${day}/${id}")
      = .ok (natToStr y ++ '/' ::
          (natToStr m ++ '/' :: (natToStr d ++ '/' :: (idv ++ [])))) := rfl
  rw [hts]
  dsimp only
  congr 1
  apply unescape_no_underscore
  intro c hc
  simp only [List.mem_append, List.mem_cons, List.append_nil] at hc
  rcases hc with hc | hc | hc | hc | hc | hc | hc
  · exact natToStr_no_underscore y c hc
  · rw [hc]; decide
  · exact natToStr_no_underscore m c hc
  · rw [hc]; decide
  · exact natToStr_no_underscore d c hc
  · rw [hc]; decide
  · exact hidu c hc

/-- Concrete instantiation of the general part of C6 on a second date. -/
theorem claim6_date_template_witness :
    get_path
        { collection := none, id := some (str "abc"),
          properties := [(str "datetime", .s (str "1999-12-31T23:59:59+00:00"))],
          links := [] }
        (.strT (str "${year}/${month}/${day}/${id}"))
      = .ok (str "1999/12/31/abc") := by
  exact claim6_date_template.2.2
    { collection := none, id := some (str "abc"),
      properties := [(str "datetime", .s (str "1999-12-31T23:59:59+00:00"))], links := [] }
    (str "1999-12-31T23:59:59+00:00") (str "abc") 1999 12 31 rfl rfl rfl (by decide)

/-! ### C10: the colon escape round trip

The claim speaks about templates as literal text interleaved with `${name}`
placeholders; `TSeg`/`renderT` make that structure explicit, and
`directSubst` is the specification-side resolution: literal text (colons
included) is kept in place and each placeholder is looked up under its
original, possibly colon-containing, name. -/

/-- A template segment: literal text or a `${name}` placeholder. -/
inductive TSeg where
  | lit (s : Str)
  | ph (name : Str)

/-- Render segments to the template string handed to `get_path`. -/
def renderT : List TSeg → Str
  | [] => []
  | .lit s :: r => s ++ renderT r
  | .ph n :: r => '$' :: '{' :: (n ++ '}' :: renderT r)

/-- Specification-side key resolution: identical to `resolveKey` except that
the key is the placeholder's original name, looked up directly (no escape /
unescape step). -/
def directKey (item : Item) (key : Str) : Except PubErr Str :=
  if key == str "collection" then
    match item.collection with
    | some v => .ok v
    | none => .error (.missingField (str "collection"))
  else if key == str "id" then
    match item.id with
    | some v => .ok v
    | none => .error (.missingField (str "id"))
  else if key == str "year" || key == str "month" || key == str "day" then
    match lookupA item.properties (str "datetime") with
    | none => .error (.missingField (str "datetime"))
    | some (.s ds) =>
      match parseDateYMD ds with
      | none => .error .invalidDate
      | some (y, m, d) =>
        .ok (natToStr (if key == str "year" then y else if key == str "month" then m else d))
    | some _ => .error .invalidDate
  else
    match lookupA item.properties key with
    | some v => .ok (propToStr v)
    | none => .error (.missingField key)

/-- Specification-side template resolution: concatenate literal segments
unchanged and placeholder values resolved under their original names. -/
def directSubst (item : Item) : List TSeg → Except PubErr Str
  | [] => .ok []
  | .lit s :: r =>
    match directSubst item r with
    | .ok t => .ok (s ++ t)
    | .error e => .error e
  | .ph n :: r =>
    match directKey item n with
    | .error e => .error e
    | .ok v =>
      match directSubst item r with
      | .ok t => .ok (v ++ t)
      | .error e => .error e

/-- A literal segment is plain text: no placeholder or brace syntax. -/
def litOK (s : Str) : Bool := s.all (fun c => !(c == '$' || c == '{' || c == '}'))

/-- A placeholder-name character: identifier character or colon. -/
def nameChar (c : Char) : Bool := idChar c || c == ':'

/-- A well-formed placeholder name: nonempty, made of identifier characters
and colons, starting with an identifier-start character or a colon, and not
containing the letter sequence `colon`. -/
def nameOK (n : Str) : Bool :=
  match n with
  | [] => false
  | c :: _ => (idStart c || c == ':') && n.all nameChar && !containsSub (str "colon") n

/-- Well-formedness of a segment list. -/
def segsOK : List TSeg → Bool
  | [] => true
  | .lit s :: r => litOK s && segsOK r
  | .ph n :: r => nameOK n && segsOK r

/-- The colon-escaped rendering: what `escColons` makes of the template. -/
def renderEsc : List TSeg → Str
  | [] => []
  | .lit s :: r => escColons s ++ renderEsc r
  | .ph n :: r => '$' :: '{' :: (escColons n ++ '}' :: renderEsc r)

/-- The escaped placeholder names in template order (what `Formatter().parse`
collects from the escaped template). -/
def escNames : List TSeg → List Str
  | [] => []
  | .lit _ :: r => escNames r
  | .ph n :: r => escColons n :: escNames r

/-- The substitution dictionary `get_path` builds, in segment order. -/
def segsSubs (item : Item) : List TSeg → List (Str × Str)
  | [] => []
  | .lit _ :: r => segsSubs item r
  | .ph n :: r =>
    (escColons n,
      match directKey item n with
      | .ok v => v
      | .error _ => []) :: segsSubs item r

/-- A character of the substituted text, marked by provenance: `raw` for
characters copied verbatim (literal non-colon text and substituted values),
`esc` for a literal template colon that went through the `__colon__`
escape. -/
inductive MC where
  | raw (c : Char)
  | esc

/-- The escaped view of a marked string (before the final unescape). -/
def toEsc : List MC → Str
  | [] => []
  | .raw c :: r => c :: toEsc r
  | .esc :: r => escSeq ++ toEsc r

/-- The direct view of a marked string (escapes read back as colons). -/
def toDirect : List MC → Str
  | [] => []
  | .raw c :: r => c :: toDirect r
  | .esc :: r => ':' :: toDirect r

/-- Mark a string, escaping its colons. -/
def mark (s : Str) : List MC := s.map (fun c => if c = ':' then MC.esc else MC.raw c)

/-- The marked form of the substituted template: literal text is marked (its
colons escaped), substituted values are raw (their colons, if any, are never
escaped). -/
def mcOfSegs (item : Item) : List TSeg → List MC
  | [] => []
  | .lit s :: r => mark s ++ mcOfSegs item r
  | .ph n :: r =>
    (match directKey item n with
     | .ok v => v.map MC.raw
     | .error _ => []) ++ mcOfSegs item r

theorem toEsc_append (a b : List MC) : toEsc (a ++ b) = toEsc a ++ toEsc b := by
  induction a with
  | nil => rfl
  | cons x r ih => cases x <;> simp [toEsc, ih]

theorem toDirect_append (a b : List MC) : toDirect (a ++ b) = toDirect a ++ toDirect b := by
  induction a with
  | nil => rfl
  | cons x r ih => cases x <;> simp [toDirect, ih]

theorem toEsc_mark (s : Str) : toEsc (mark s) = escColons s := by
  induction s with
  | nil => rfl
  | cons c r ih =>
    by_cases hc : c = ':'
    · subst hc; simp [mark, toEsc, escColons]; exact ih
    · simp [mark, toEsc, escColons, hc]; exact ih

theorem toDirect_mark (s : Str) : toDirect (mark s) = s := by
  induction s with
  | nil => rfl
  | cons c r ih =>
    by_cases hc : c = ':'
    · subst hc; simp [mark, toDirect]; exact ih
    · simp [mark, toDirect, hc]; exact ih

theorem toEsc_map_raw (s : Str) : toEsc (s.map MC.raw) = s := by
  induction s with
  | nil => rfl
  | cons c r ih => simp [toEsc, ih]

theorem toDirect_map_raw (s : Str) : toDirect (s.map MC.raw) = s := by
  induction s with
  | nil => rfl
  | cons c r ih => simp [toDirect, ih]

theorem escColons_append (a b : Str) : escColons (a ++ b) = escColons a ++ escColons b := by
  induction a with
  | nil => rfl
  | cons c r ih => simp [escColons, ih]

theorem escColons_renderT (segs : List TSeg) : escColons (renderT segs) = renderEsc segs := by
  induction segs with
  | nil => rfl
  | cons sg r ih =>
    cases sg with
    | lit s => simp [renderT, renderEsc, escColons_append, ih]
    | ph n =>
      show escColons ('$' :: '{' :: (n ++ '}' :: renderT r)) = _
      rw [show ('$' :: '{' :: (n ++ '}' :: renderT r) : Str)
          = [ '$', '{' ] ++ n ++ ('}' :: renderT r) from by simp,
        escColons_append, escColons_append]
      show ('$' :: '{' :: ([] : Str)) ++ _ ++ escColons ('}' :: renderT r) = _
      rw [show escColons ('}' :: renderT r) = '}' :: escColons (renderT r) from rfl, ih]
      simp [renderEsc]

theorem isPre_append_self (p r : Str) : isPre p (p ++ r) = true := by
  induction p with
  | nil => rfl
  | cons c ps ih => simp [isPre, ih]

theorem containsSub_cons_false (pat : Str) (c : Char) (cs : Str)
    (h : containsSub pat (c :: cs) = false) : containsSub pat cs = false := by
  rw [containsSub] at h
  exact (Bool.or_eq_false_iff.mp h).2

theorem fkF_ge (f : Nat) : ∀ (s : Str) (g : Nat), s.length < f → s.length < g →
    fkF f s = fkF g s := by
  induction f with
  | zero => intro s g h _; exact absurd h (Nat.not_lt_zero _)
  | succ f ih =>
    intro s g hf hg
    cases s with
    | nil =>
      cases g with
      | zero => exact absurd hg (Nat.not_lt_zero _)
      | succ g => rfl
    | cons c rest =>
      cases g with
      | zero => exact absurd hg (Nat.not_lt_zero _)
      | succ g =>
        have hfl : rest.length + 1 < f + 1 := by simpa using hf
        have hgl : rest.length + 1 < g + 1 := by simpa using hg
        simp only [fkF]
        by_cases h1 : c = '{'
        · rw [if_pos h1, if_pos h1]
          cases rest with
          | nil => rfl
          | cons c2 r =>
            dsimp only
            by_cases h2 : c2 = '{'
            · rw [if_pos h2, if_pos h2]
              apply ih r g (by simp at hfl; omega) (by simp at hgl; omega)
            · rw [if_neg h2, if_neg h2]
              cases hr1 : (c2 :: r).dropWhile (fun x => !(x == '}' || x == ':' || x == '!')) with
              | nil => rfl
              | cons c4 r2 =>
                dsimp only
                by_cases h4 : c4 = '}'
                · rw [if_pos h4, if_pos h4]
                  have hlen : r2.length + 1 ≤ r.length + 1 := by
                    have hsub : (List.dropWhile (fun x => !(x == '}' || x == ':' || x == '!'))
                        (c2 :: r)).Sublist (c2 :: r) := List.dropWhile_sublist _
                    have hd := hsub.length_le
                    rw [hr1] at hd
                    simpa using hd
                  rw [ih r2 g (by simp at hfl; omega) (by simp at hgl; omega)]
                · rw [if_neg h4, if_neg h4]
        · rw [if_neg h1, if_neg h1]
          by_cases h2 : c = '}'
          · rw [if_pos h2, if_pos h2]
            cases rest with
            | nil => rfl
            | cons c2 r =>
              dsimp only
              by_cases h3 : c2 = '}'
              · rw [if_pos h3, if_pos h3]
                apply ih r g (by simp at hfl; omega) (by simp at hgl; omega)
              · rw [if_neg h3, if_neg h3]
          · rw [if_neg h2, if_neg h2]
            apply ih rest g (by omega) (by omega)

theorem tsubF_ge (subs : List (Str × Str)) (f : Nat) :
    ∀ (s : Str) (g : Nat), s.length < f → s.length < g →
    tsubF subs f s = tsubF subs g s := by
  induction f with
  | zero => intro s g h _; exact absurd h (Nat.not_lt_zero _)
  | succ f ih =>
    intro s g hf hg
    cases s with
    | nil =>
      cases g with
      | zero => exact absurd hg (Nat.not_lt_zero _)
      | succ g => rfl
    | cons c rest =>
      cases g with
      | zero => exact absurd hg (Nat.not_lt_zero _)
      | succ g =>
        have hfl : rest.length + 1 < f + 1 := by simpa using hf
        have hgl : rest.length + 1 < g + 1 := by simpa using hg
        simp only [tsubF]
        by_cases h1 : c = '$'
        · rw [if_pos h1, if_pos h1]
          cases rest with
          | nil => rfl
          | cons c2 r =>
            dsimp only
            by_cases h2 : c2 = '$'
            · rw [if_pos h2, if_pos h2]
              rw [ih r g (by simp at hfl; omega) (by simp at hgl; omega)]
            · rw [if_neg h2, if_neg h2]
              by_cases h3 : c2 = '{'
              · rw [if_pos h3, if_pos h3]
                cases r with
                | nil => rfl
                | cons c3 r1 =>
                  dsimp only
                  by_cases h4 : idStart c3
                  · rw [if_pos h4, if_pos h4]
                    cases hr2 : r1.dropWhile idChar with
                    | nil => rfl
                    | cons c4 r3 =>
                      dsimp only
                      by_cases h5 : c4 = '}'
                      · rw [if_pos h5, if_pos h5]
                        cases lookupA subs (c3 :: r1.takeWhile idChar) with
                        | none => rfl
                        | some v =>
                          have hlen : r3.length + 1 ≤ r1.length + 1 := by
                            have hsub : (List.dropWhile idChar r1).Sublist r1 :=
                              List.dropWhile_sublist _
                            have hd := hsub.length_le
                            rw [hr2] at hd
                            simp at hd
                            omega
                          rw [ih r3 g (by simp at hfl; omega) (by simp at hgl; omega)]
                      · rw [if_neg h5, if_neg h5]
                  · rw [if_neg h4, if_neg h4]
              · rw [if_neg h3, if_neg h3]
                by_cases h4 : idStart c2
                · rw [if_pos h4, if_pos h4]
                  cases lookupA subs (c2 :: r.takeWhile idChar) with
                  | none => rfl
                  | some v =>
                    have hlen : (r.dropWhile idChar).length ≤ r.length :=
                      (List.dropWhile_sublist idChar).length_le
                    rw [ih (r.dropWhile idChar) g (by simp at hfl; omega)
                      (by simp at hgl; omega)]
                · rw [if_neg h4, if_neg h4]
        · rw [if_neg h1, if_neg h1]
          rw [ih rest g (by omega) (by omega)]

/-- If `__colon__` is a prefix of the escaped view of a marked string whose
head is a raw character, then the direct view contains the letter sequence
`colon` (the occurrence spans raw text, it is not a canonical escape). -/
theorem escSeq_prefix_gives_colon (m : List MC) (c : Char)
    (h : isPre escSeq (toEsc (.raw c :: m)) = true) :
    containsSub (str "colon") (toDirect (.raw c :: m)) = true := by
  rw [show isPre escSeq (toEsc (.raw c :: m))
      = (('_' == c) && isPre (str "_colon__") (toEsc m)) from rfl] at h
  rw [Bool.and_eq_true] at h
  obtain ⟨hc, h⟩ := h
  replace hc : c = '_' := (beq_iff_eq.mp hc).symm
  subst hc
  cases m with
  | nil => exact Bool.noConfusion h
  | cons a m1 =>
    cases a with
    | esc => exact Bool.noConfusion h
    | raw c1 =>
      rw [show isPre (str "_colon__") (toEsc (.raw c1 :: m1))
          = (('_' == c1) && isPre (str "colon__") (toEsc m1)) from rfl] at h
      rw [Bool.and_eq_true] at h
      obtain ⟨hc1, h⟩ := h
      replace hc1 : c1 = '_' := (beq_iff_eq.mp hc1).symm
      subst hc1
      cases m1 with
      | nil => exact Bool.noConfusion h
      | cons a m2 =>
        cases a with
        | esc => exact Bool.noConfusion h
        | raw c2 =>
          rw [show isPre (str "colon__") (toEsc (.raw c2 :: m2))
              = (('c' == c2) && isPre (str "olon__") (toEsc m2)) from rfl] at h
          rw [Bool.and_eq_true] at h
          obtain ⟨hc2, h⟩ := h
          replace hc2 : c2 = 'c' := (beq_iff_eq.mp hc2).symm
          subst hc2
          cases m2 with
          | nil => exact Bool.noConfusion h
          | cons a m3 =>
            cases a with
            | esc => exact Bool.noConfusion h
            | raw c3 =>
              rw [show isPre (str "olon__") (toEsc (.raw c3 :: m3))
                  = (('o' == c3) && isPre (str "lon__") (toEsc m3)) from rfl] at h
              rw [Bool.and_eq_true] at h
              obtain ⟨hc3, h⟩ := h
              replace hc3 : c3 = 'o' := (beq_iff_eq.mp hc3).symm
              subst hc3
              cases m3 with
              | nil => exact Bool.noConfusion h
              | cons a m4 =>
                cases a with
                | esc => exact Bool.noConfusion h
                | raw c4 =>
                  rw [show isPre (str "lon__") (toEsc (.raw c4 :: m4))
                      = (('l' == c4) && isPre (str "on__") (toEsc m4)) from rfl] at h
                  rw [Bool.and_eq_true] at h
                  obtain ⟨hc4, h⟩ := h
                  replace hc4 : c4 = 'l' := (beq_iff_eq.mp hc4).symm
                  subst hc4
                  cases m4 with
                  | nil => exact Bool.noConfusion h
                  | cons a m5 =>
                    cases a with
                    | esc => exact Bool.noConfusion h
                    | raw c5 =>
                      rw [show isPre (str "on__") (toEsc (.raw c5 :: m5))
                          = (('o' == c5) && isPre (str "n__") (toEsc m5)) from rfl] at h
                      rw [Bool.and_eq_true] at h
                      obtain ⟨hc5, h⟩ := h
                      replace hc5 : c5 = 'o' := (beq_iff_eq.mp hc5).symm
                      subst hc5
                      cases m5 with
                      | nil => exact Bool.noConfusion h
                      | cons a m6 =>
                        cases a with
                        | esc => exact Bool.noConfusion h
                        | raw c6 =>
                          rw [show isPre (str "n__") (toEsc (.raw c6 :: m6))
                              = (('n' == c6) && isPre (str "__") (toEsc m6)) from rfl] at h
                          rw [Bool.and_eq_true] at h
                          obtain ⟨hc6, _⟩ := h
                          replace hc6 : c6 = 'n' := (beq_iff_eq.mp hc6).symm
                          subst hc6
                          rfl

/-- Core round-trip lemma: when the direct view contains no `colon` letter
sequence, every `__colon__` occurrence of the escaped view is a canonical
escape, and the unescape pass restores exactly the direct view. -/
theorem unescapeF_toEsc (m : List MC) : ∀ (f : Nat), (toEsc m).length ≤ f →
    containsSub (str "colon") (toDirect m) = false →
    unescapeF f (toEsc m) = toDirect m := by
  induction m with
  | nil =>
    intro f _ _
    cases f <;> rfl
  | cons a m' ih =>
    intro f hf hnc
    cases a with
    | esc =>
      cases f with
      | zero =>
        exact absurd hf (by simp [toEsc, escSeq, str])
      | succ f' =>
        have hp : isPre escSeq ('_' :: ('_' :: 'c' :: 'o' :: 'l' :: 'o' :: 'n' :: '_' :: '_'
            :: toEsc m')) = true := isPre_append_self escSeq (toEsc m')
        rw [show toEsc (.esc :: m')
            = '_' :: ('_' :: 'c' :: 'o' :: 'l' :: 'o' :: 'n' :: '_' :: '_' :: toEsc m')
            from rfl]
        rw [unescapeF, if_pos hp]
        rw [show (('_' :: 'c' :: 'o' :: 'l' :: 'o' :: 'n' :: '_' :: '_' :: toEsc m').drop 8 : Str)
            = toEsc m' from rfl]
        have hf' : (toEsc m').length ≤ f' := by
          have : (toEsc (.esc :: m')).length = 9 + (toEsc m').length := by
            simp [toEsc, escSeq, str]; omega
          omega
        rw [ih f' hf' (containsSub_cons_false _ _ _ hnc)]
        rfl
    | raw c =>
      cases f with
      | zero =>
        exact absurd hf (by simp [toEsc])
      | succ f' =>
        have hp : isPre escSeq (toEsc (.raw c :: m')) = false := by
          cases hq : isPre escSeq (toEsc (.raw c :: m')) with
          | false => rfl
          | true =>
            have hcol := escSeq_prefix_gives_colon m' c hq
            rw [hcol] at hnc
            exact Bool.noConfusion hnc
        rw [show toEsc (.raw c :: m') = c :: toEsc m' from rfl]
        rw [unescapeF, if_neg (by rw [show isPre escSeq (c :: toEsc m')
            = isPre escSeq (toEsc (.raw c :: m')) from rfl, hp]; simp)]
        have hf' : (toEsc m').length ≤ f' := by
          have : (toEsc (.raw c :: m')).length = 1 + (toEsc m').length := by
            simp [toEsc]; omega
          omega
        rw [ih f' hf' (containsSub_cons_false _ _ _ hnc)]
        rfl

/-- The unescape pass on a marked string's escaped view. -/
theorem unescape_toEsc (m : List MC)
    (hnc : containsSub (str "colon") (toDirect m) = false) :
    unescape (toEsc m) = toDirect m :=
  unescapeF_toEsc m (toEsc m).length (Nat.le_refl _) hnc

theorem takeWhile_app (P : Char → Bool) (a : Str) (c : Char) (r : Str)
    (ha : ∀ x ∈ a, P x = true) (hc : P c = false) :
    (a ++ c :: r).takeWhile P = a ∧ (a ++ c :: r).dropWhile P = c :: r := by
  induction a with
  | nil => simp [List.takeWhile, List.dropWhile, hc]
  | cons x a' ih =>
    have hx : P x = true := ha x (List.mem_cons_self x a')
    have ih' := ih (fun y hy => ha y (List.mem_cons_of_mem x hy))
    simp [List.takeWhile, List.dropWhile, hx, ih'.1, ih'.2]

theorem fk_cons_plain (c : Char) (u : Str) (hc1 : c ≠ '{') (hc2 : c ≠ '}') :
    fk (c :: u) = fk u := by
  simp only [fk, List.length_cons]
  simp only [fkF]
  rw [if_neg hc1, if_neg hc2]

theorem fk_prepend (s rest : Str) (hs : ∀ c ∈ s, c ≠ '{' ∧ c ≠ '}') :
    fk (s ++ rest) = fk rest := by
  induction s with
  | nil => rfl
  | cons c s' ih =>
    have hc := hs c (List.mem_cons_self c s')
    rw [List.cons_append, fk_cons_plain c (s' ++ rest) hc.1 hc.2]
    exact ih (fun x hx => hs x (List.mem_cons_of_mem c hx))

theorem fkF_ph (c0 : Char) (en' rest : Str)
    (h0 : (c0 == '}' || c0 == ':' || c0 == '!') = false) (hne : c0 ≠ '{')
    (hen : ∀ x ∈ en', (x == '}' || x == ':' || x == '!') = false) :
    ∀ g : Nat, en'.length + rest.length + 4 < g →
    fkF g ('$' :: '{' :: ((c0 :: en') ++ '}' :: rest))
      = match fk rest with
        | .ok ks => .ok ((c0 :: en') :: ks)
        | .error e => .error e := by
  have hsplit := takeWhile_app (fun x => !(x == '}' || x == ':' || x == '!'))
    (c0 :: en') '}' rest
    (by
      intro x hx
      rcases hx with _ | ⟨_, hx⟩
      · simp [h0]
      · simp [hen x hx])
    (by decide)
  intro g hg
  cases g with
  | zero => omega
  | succ g =>
    simp only [fkF]
    rw [if_neg (by decide : ¬ ('$' : Char) = '{'),
      if_neg (by decide : ¬ ('$' : Char) = '}')]
    cases g with
    | zero => omega
    | succ g =>
      simp only [fkF]
      rw [if_pos trivial]
      rw [show ((c0 :: en') ++ '}' :: rest : Str) = c0 :: (en' ++ '}' :: rest) from rfl]
      dsimp only
      rw [if_neg hne]
      rw [show (c0 :: (en' ++ '}' :: rest) : Str) = (c0 :: en') ++ '}' :: rest from rfl]
      rw [hsplit.1, hsplit.2]
      dsimp only
      rw [if_pos rfl]
      rw [fkF_ge g rest (rest.length + 1) (by omega) (by omega)]
      rfl

theorem fk_ph (c0 : Char) (en' rest : Str)
    (h0 : (c0 == '}' || c0 == ':' || c0 == '!') = false) (hne : c0 ≠ '{')
    (hen : ∀ x ∈ en', (x == '}' || x == ':' || x == '!') = false) :
    fk ('$' :: '{' :: ((c0 :: en') ++ '}' :: rest))
      = match fk rest with
        | .ok ks => .ok ((c0 :: en') :: ks)
        | .error e => .error e := by
  rw [fk]
  apply fkF_ph c0 en' rest h0 hne hen
  simp

theorem tsub_cons_plain (subs : List (Str × Str)) (c : Char) (u : Str) (hc : c ≠ '$') :
    tsub subs (c :: u)
      = match tsub subs u with
        | .ok t => .ok (c :: t)
        | .error e => .error e := by
  simp only [tsub, List.length_cons]
  simp only [tsubF]
  rw [if_neg hc]

theorem tsub_prepend (subs : List (Str × Str)) (s rest : Str) (hs : ∀ c ∈ s, c ≠ '$') :
    tsub subs (s ++ rest)
      = match tsub subs rest with
        | .ok t => .ok (s ++ t)
        | .error e => .error e := by
  induction s with
  | nil =>
    cases h : tsub subs rest with
    | ok t => simp [h]
    | error e => simp [h]
  | cons c s' ih =>
    have hc := hs c (List.mem_cons_self c s')
    rw [List.cons_append, tsub_cons_plain subs c (s' ++ rest) hc]
    rw [ih (fun x hx => hs x (List.mem_cons_of_mem c hx))]
    cases tsub subs rest with
    | ok t => rfl
    | error e => rfl

theorem tsubF_ph (subs : List (Str × Str)) (c0 : Char) (en' rest v : Str)
    (h0 : idStart c0 = true)
    (hen : ∀ x ∈ en', idChar x = true)
    (hlook : lookupA subs (c0 :: en') = some v) :
    ∀ g : Nat, en'.length + rest.length + 4 < g →
    tsubF subs g ('$' :: '{' :: ((c0 :: en') ++ '}' :: rest))
      = match tsub subs rest with
        | .ok t => .ok (v ++ t)
        | .error e => .error e := by
  have hsplit := takeWhile_app idChar en' '}' rest hen (by decide)
  intro g hg
  cases g with
  | zero => omega
  | succ g =>
    simp only [tsubF]
    rw [if_pos trivial]
    rw [if_neg (by decide : ¬ ('{' : Char) = '$'), if_pos trivial]
    rw [show ((c0 :: en') ++ '}' :: rest : Str) = c0 :: (en' ++ '}' :: rest) from rfl]
    dsimp only
    rw [if_pos h0]
    rw [hsplit.1, hsplit.2]
    dsimp only
    rw [if_pos rfl, hlook]
    rw [tsubF_ge subs g rest (rest.length + 1) (by omega) (by omega)]
    rfl

theorem tsub_ph (subs : List (Str × Str)) (c0 : Char) (en' rest v : Str)
    (h0 : idStart c0 = true)
    (hen : ∀ x ∈ en', idChar x = true)
    (hlook : lookupA subs (c0 :: en') = some v) :
    tsub subs ('$' :: '{' :: ((c0 :: en') ++ '}' :: rest))
      = match tsub subs rest with
        | .ok t => .ok (v ++ t)
        | .error e => .error e := by
  rw [tsub]
  apply tsubF_ph subs c0 en' rest v h0 hen hlook
  simp

theorem escColons_mem (s : Str) (c : Char) (h : c ∈ escColons s) :
    c ∈ escSeq ∨ (c ∈ s ∧ c ≠ ':') := by
  induction s with
  | nil => cases h
  | cons x r ih =>
    rw [escColons] at h
    rcases List.mem_append.mp h with h1 | h1
    · by_cases hx : x = ':'
      · subst hx
        rw [if_pos (by decide : ((':' : Char) == ':') = true)] at h1
        exact Or.inl h1
      · rw [if_neg (by simp [hx])] at h1
        rcases h1 with _ | ⟨_, h1⟩
        · exact Or.inr ⟨List.mem_cons_self _ _, hx⟩
        · cases h1
    · rcases ih h1 with h2 | ⟨h2, h3⟩
      · exact Or.inl h2
      · exact Or.inr ⟨List.mem_cons_of_mem x h2, h3⟩

theorem escSeq_idChar : ∀ c ∈ escSeq, idChar c = true := by decide

theorem idChar_ne_special (c : Char) (h : idChar c = true) :
    c ≠ '{' ∧ c ≠ '}' ∧ c ≠ '$' ∧ c ≠ ':' ∧ c ≠ '!' ∧ c ≠ '/' := by
  refine ⟨?_, ?_, ?_, ?_, ?_, ?_⟩ <;> intro he <;> subst he <;> exact absurd h (by decide)

theorem idStart_idChar (c : Char) (h : idStart c = true) : idChar c = true := by
  rw [idStart] at h
  rw [idChar]
  rcases Bool.or_eq_true _ _ ▸ h with h1 | h1
  · simp [Char.isAlphanum, h1]
  · simp [h1]

theorem nameOK_parts (n : Str) (h : nameOK n = true) :
    (∃ c n', n = c :: n' ∧ (idStart c || c == ':') = true)
    ∧ (∀ c ∈ n, nameChar c = true)
    ∧ containsSub (str "colon") n = false := by
  cases n with
  | nil => exact absurd h (by simp [nameOK])
  | cons c n' =>
    rw [nameOK, Bool.and_eq_true, Bool.and_eq_true] at h
    obtain ⟨⟨h1, h2⟩, h3⟩ := h
    refine ⟨⟨c, n', rfl, h1⟩, ?_, ?_⟩
    · intro x hx
      exact List.all_eq_true.mp h2 x hx
    · rcases hcs : containsSub (str "colon") (c :: n') with _ | _
      · rfl
      · rw [hcs] at h3; exact Bool.noConfusion h3

theorem escColons_all_idChar (n : Str) (hn : nameOK n = true) :
    ∀ c ∈ escColons n, idChar c = true := by
  obtain ⟨_, hall, _⟩ := nameOK_parts n hn
  intro c hc
  rcases escColons_mem n c hc with h1 | ⟨h1, h2⟩
  · exact escSeq_idChar c h1
  · have := hall c h1
    rw [nameChar, Bool.or_eq_true] at this
    rcases this with h3 | h3
    · exact h3
    · exact absurd (beq_iff_eq.mp h3) h2

theorem escColons_shape (n : Str) (hn : nameOK n = true) :
    ∃ c0 en', escColons n = c0 :: en' ∧ idStart c0 = true := by
  obtain ⟨⟨c, n', hshape, hstart⟩, _, _⟩ := nameOK_parts n hn
  subst hshape
  by_cases hc : c = ':'
  · subst hc
    refine ⟨'_', '_' :: 'c' :: 'o' :: 'l' :: 'o' :: 'n' :: '_' :: '_' :: escColons n', ?_,
      by decide⟩
    rw [escColons, if_pos (by decide : ((':' : Char) == ':') = true)]
    rw [show (escSeq : Str) = ['_', '_', 'c', 'o', 'l', 'o', 'n', '_', '_'] from by decide]
    rfl
  · refine ⟨c, escColons n', ?_, ?_⟩
    · rw [escColons, if_neg (by simp [hc])]
      rfl
    · rcases Bool.or_eq_true _ _ ▸ hstart with h1 | h1
      · exact h1
      · exact absurd (beq_iff_eq.mp h1) hc

theorem escColons_id (n : Str) (h : ∀ c ∈ n, c ≠ ':') : escColons n = n := by
  induction n with
  | nil => rfl
  | cons c r ih =>
    rw [escColons, if_neg (by simp [h c (List.mem_cons_self c r)])]
    rw [ih (fun x hx => h x (List.mem_cons_of_mem c hx))]
    rfl

theorem unescape_escColons (n : Str) (hnc : containsSub (str "colon") n = false) :
    unescape (escColons n) = n := by
  have h := unescape_toEsc (mark n) (by rw [toDirect_mark]; exact hnc)
  rw [toEsc_mark, toDirect_mark] at h
  exact h

theorem escColons_inj (n n' : Str) (h1 : containsSub (str "colon") n = false)
    (h2 : containsSub (str "colon") n' = false) (he : escColons n = escColons n') :
    n = n' := by
  rw [← unescape_escColons n h1, ← unescape_escColons n' h2, he]

theorem colon_mem_escColons (n : Str) (h : ':' ∈ n) : '_' ∈ escColons n := by
  induction n with
  | nil => cases h
  | cons c r ih =>
    rw [escColons]
    rcases h with _ | ⟨_, h⟩
    · rw [if_pos (by decide : ((':' : Char) == ':') = true)]
      apply List.mem_append.mpr
      exact Or.inl (by decide)
    · exact List.mem_append.mpr (Or.inr (ih h))

/-- The bridge between the code's key resolution (on the escaped key) and the
specification's (on the original name): for well-formed names they agree. -/
theorem resolveKey_escColons (item : Item) (n : Str) (hn : nameOK n = true) :
    resolveKey item (escColons n) = directKey item n := by
  obtain ⟨_, _, hnc⟩ := nameOK_parts n hn
  by_cases hcol : ':' ∈ n
  · have hmem : '_' ∈ escColons n := colon_mem_escColons n hcol
    have hne : ∀ t : Str, '_' ∉ t → (escColons n == t) = false := by
      intro t ht
      rw [beq_eq_false_iff_ne]
      intro he
      rw [he] at hmem
      exact ht hmem
    have hne' : ∀ t : Str, ':' ∉ t → (n == t) = false := by
      intro t ht
      rw [beq_eq_false_iff_ne]
      intro he
      rw [he] at hcol
      exact ht hcol
    rw [resolveKey, directKey]
    rw [if_neg (by simp [hne (str "collection") (by decide)]),
      if_neg (by simp [hne (str "id") (by decide)]),
      if_neg (by simp [hne (str "year") (by decide), hne (str "month") (by decide),
        hne (str "day") (by decide)])]
    rw [if_neg (by simp [hne' (str "collection") (by decide)]),
      if_neg (by simp [hne' (str "id") (by decide)]),
      if_neg (by simp [hne' (str "year") (by decide), hne' (str "month") (by decide),
        hne' (str "day") (by decide)])]
    rw [unescape_escColons n hnc]
  · have hid : escColons n = n := escColons_id n (fun c hc => by
      intro he; rw [he] at hc; exact hcol hc)
    rw [hid]
    have hu : unescape n = n := by
      have := unescape_escColons n hnc
      rw [hid] at this
      exact this
    rw [resolveKey, directKey, hu]

theorem segsOK_lit (s : Str) (r : List TSeg) (h : segsOK (.lit s :: r) = true) :
    litOK s = true ∧ segsOK r = true := by
  rw [segsOK, Bool.and_eq_true] at h
  exact h

theorem segsOK_phHead (n : Str) (r : List TSeg) (h : segsOK (.ph n :: r) = true) :
    nameOK n = true ∧ segsOK r = true := by
  rw [segsOK, Bool.and_eq_true] at h
  exact h

theorem segsOK_ph (segs : List TSeg) (n : Str) (hWF : segsOK segs = true)
    (h : TSeg.ph n ∈ segs) : nameOK n = true := by
  induction segs with
  | nil => cases h
  | cons sg r ih =>
    cases sg with
    | lit s =>
      rcases h with _ | ⟨_, h⟩
      exact ih (segsOK_lit s r hWF).2 h
    | ph n' =>
      rcases h with _ | ⟨_, h⟩
      · exact (segsOK_phHead n r hWF).1
      · exact ih (segsOK_phHead n' r hWF).2 h

theorem directSubst_ph (item : Item) (segs : List TSeg) (n : Str) (d : Str)
    (hmem : TSeg.ph n ∈ segs) (hd : directSubst item segs = .ok d) :
    ∃ v, directKey item n = .ok v := by
  induction segs generalizing d with
  | nil => cases hmem
  | cons sg r ih =>
    cases sg with
    | lit s =>
      rcases hmem with _ | ⟨_, hmem⟩
      rw [directSubst] at hd
      rcases hr : directSubst item r with e | t
      · rw [hr] at hd; exact absurd hd (by simp)
      · exact ih t hmem hr
    | ph n' =>
      rw [directSubst] at hd
      rcases hk : directKey item n' with e | v
      · rw [hk] at hd; exact absurd hd (by simp)
      · rcases hmem with _ | ⟨_, hmem⟩
        · exact ⟨v, hk⟩
        · rcases hr : directSubst item r with e | t
          · rw [hk, hr] at hd; exact absurd hd (by simp)
          · exact ih t hmem hr

theorem buildSubs_segsSubs (item : Item) (segs : List TSeg)
    (hsub : ∀ n, TSeg.ph n ∈ segs → ∃ v, directKey item n = .ok v)
    (hWF : segsOK segs = true) :
    buildSubs item (escNames segs) = .ok (segsSubs item segs) := by
  induction segs with
  | nil => rfl
  | cons sg r ih =>
    cases sg with
    | lit s =>
      rw [escNames]
      show buildSubs item (escNames r) = _
      rw [ih (fun n hn => hsub n (List.mem_cons_of_mem _ hn)) (segsOK_lit s r hWF).2]
      rfl
    | ph n =>
      obtain ⟨v, hv⟩ := hsub n (List.mem_cons_self _ _)
      rw [escNames, buildSubs,
        resolveKey_escColons item n (segsOK_phHead n r hWF).1, hv,
        ih (fun n' hn => hsub n' (List.mem_cons_of_mem _ hn)) (segsOK_phHead n r hWF).2]
      rw [segsSubs, hv]

theorem lookup_segsSubs (item : Item) (segs : List TSeg) (hWF : segsOK segs = true) :
    ∀ n v, TSeg.ph n ∈ segs → directKey item n = .ok v →
    lookupA (segsSubs item segs) (escColons n) = some v := by
  induction segs with
  | nil => intro n v h _; cases h
  | cons sg r ih =>
    intro n v hmem hv
    cases sg with
    | lit s =>
      rcases hmem with _ | ⟨_, hmem⟩
      exact ih (segsOK_lit s r hWF).2 n v hmem hv
    | ph n' =>
      rw [segsSubs, lookupA]
      by_cases he : escColons n' = escColons n
      · rw [if_pos (by simp [he])]
        have hn'OK := (segsOK_phHead n' r hWF).1
        have hnOK : nameOK n = true := segsOK_ph (.ph n' :: r) n hWF hmem
        have hnn : n' = n := escColons_inj n' n (nameOK_parts n' hn'OK).2.2
          (nameOK_parts n hnOK).2.2 he
        subst hnn
        rw [hv]
      · rw [if_neg (by simp [he])]
        rcases hmem with _ | ⟨_, hmem⟩
        · exact absurd rfl he
        · exact ih (segsOK_phHead n' r hWF).2 n v hmem hv

theorem toDirect_mcOfSegs (item : Item) (segs : List TSeg) (d : Str)
    (hd : directSubst item segs = .ok d) : toDirect (mcOfSegs item segs) = d := by
  induction segs generalizing d with
  | nil =>
    rw [directSubst] at hd
    rw [show d = ([] : Str) from (Except.ok.inj hd).symm]
    rfl
  | cons sg r ih =>
    cases sg with
    | lit s =>
      rw [directSubst] at hd
      rcases hr : directSubst item r with e | t
      · rw [hr] at hd; exact absurd hd (by simp)
      · rw [hr] at hd
        rw [show d = s ++ t from (Except.ok.inj hd).symm]
        rw [mcOfSegs, toDirect_append, toDirect_mark, ih t hr]
    | ph n =>
      rw [directSubst] at hd
      rcases hk : directKey item n with e | v
      · rw [hk] at hd; exact absurd hd (by simp)
      · rcases hr : directSubst item r with e | t
        · rw [hk, hr] at hd; exact absurd hd (by simp)
        · rw [hk, hr] at hd
          rw [show d = v ++ t from (Except.ok.inj hd).symm]
          rw [mcOfSegs, hk, toDirect_append, toDirect_map_raw, ih t hr]

theorem fk_renderEsc (segs : List TSeg) (hWF : segsOK segs = true) :
    fk (renderEsc segs) = .ok (escNames segs) := by
  induction segs with
  | nil => rfl
  | cons sg r ih =>
    cases sg with
    | lit s =>
      rw [renderEsc, fk_prepend (escColons s) (renderEsc r) ?hb,
        ih (segsOK_lit s r hWF).2]
      · rfl
      case hb =>
        intro c hc
        rcases escColons_mem s c hc with h1 | ⟨h1, _⟩
        · have := escSeq_idChar c h1
          exact ⟨(idChar_ne_special c this).1, (idChar_ne_special c this).2.1⟩
        · have := (segsOK_lit s r hWF).1
          rw [litOK, List.all_eq_true] at this
          have h2 := this c h1
          simp only [Bool.not_eq_true', Bool.or_eq_false_iff, beq_eq_false_iff_ne] at h2
          exact ⟨h2.1.2, h2.2⟩
    | ph n =>
      have hnOK := (segsOK_phHead n r hWF).1
      obtain ⟨c0, en', hshape, hstart⟩ := escColons_shape n hnOK
      have hall := escColons_all_idChar n hnOK
      rw [hshape] at hall
      rw [renderEsc, hshape]
      rw [fk_ph c0 en' (renderEsc r) ?h0 ?hne ?hen]
      · rw [ih (segsOK_phHead n r hWF).2]
        rw [escNames, hshape]
      case h0 =>
        have := hall c0 (List.mem_cons_self _ _)
        have h := idChar_ne_special c0 this
        simp [h.2.1, h.2.2.2.1, h.2.2.2.2.1]
      case hne =>
        exact (idChar_ne_special c0 (hall c0 (List.mem_cons_self _ _))).1
      case hen =>
        intro x hx
        have := hall x (List.mem_cons_of_mem _ hx)
        have h := idChar_ne_special x this
        simp [h.2.1, h.2.2.2.1, h.2.2.2.2.1]

theorem tsub_mcOfSegs (item : Item) (subs : List (Str × Str)) (segs : List TSeg)
    (hWF : segsOK segs = true)
    (hsub : ∀ n, TSeg.ph n ∈ segs → ∃ v, directKey item n = .ok v
        ∧ lookupA subs (escColons n) = some v) :
    tsub subs (renderEsc segs) = .ok (toEsc (mcOfSegs item segs)) := by
  induction segs with
  | nil => rfl
  | cons sg r ih =>
    cases sg with
    | lit s =>
      rw [renderEsc, tsub_prepend subs (escColons s) (renderEsc r) ?hd]
      · rw [ih (segsOK_lit s r hWF).2
          (fun n hn => hsub n (List.mem_cons_of_mem _ hn))]
        rw [mcOfSegs, toEsc_append, toEsc_mark]
      case hd =>
        intro c hc
        rcases escColons_mem s c hc with h1 | ⟨h1, _⟩
        · exact (idChar_ne_special c (escSeq_idChar c h1)).2.2.1
        · have := (segsOK_lit s r hWF).1
          rw [litOK, List.all_eq_true] at this
          have h2 := this c h1
          simp only [Bool.not_eq_true', Bool.or_eq_false_iff, beq_eq_false_iff_ne] at h2
          exact h2.1.1
    | ph n =>
      have hnOK := (segsOK_phHead n r hWF).1
      obtain ⟨c0, en', hshape, hstart⟩ := escColons_shape n hnOK
      have hall := escColons_all_idChar n hnOK
      rw [hshape] at hall
      obtain ⟨v, hv, hlook⟩ := hsub n (List.mem_cons_self _ _)
      rw [renderEsc, hshape]
      rw [tsub_ph subs c0 en' (renderEsc r) v hstart
        (fun x hx => hall x (List.mem_cons_of_mem _ hx)) (by rw [← hshape]; exact hlook)]
      rw [ih (segsOK_phHead n r hWF).2 (fun n' hn => hsub n' (List.mem_cons_of_mem _ hn))]
      rw [mcOfSegs, hv, toEsc_append, toEsc_map_raw]

theorem escColons_ne_nil (s : Str) (h : s ≠ []) : escColons s ≠ [] := by
  cases s with
  | nil => exact absurd rfl h
  | cons c r =>
    rw [escColons]
    by_cases hc : c = ':'
    · subst hc
      rw [if_pos (by decide : ((':' : Char) == ':') = true)]
      simp [escSeq, str]
    · rw [if_neg (by simp [hc])]
      simp

theorem escColons_last (t : Str) (h : (escColons t).getLast? = some '/') :
    t.getLast? = some '/' := by
  induction t with
  | nil => exact absurd h (by simp [escColons])
  | cons c r ih =>
    rw [escColons] at h
    by_cases hr : r = []
    · subst hr
      by_cases hc : c = ':'
      · subst hc
        rw [if_pos (by decide : ((':' : Char) == ':') = true)] at h
        rw [show (escSeq ++ escColons [] : Str) = escSeq from by simp [escColons]] at h
        exact absurd h (by decide)
      · rw [if_neg (by simp [hc])] at h
        rw [show (([c] ++ escColons [] : Str)) = [c] from by simp [escColons]] at h
        simp at h
        simp [h]
    · have hnn := escColons_ne_nil r hr
      rw [List.getLast?_append] at h
      rcases hy : (escColons r).getLast? with _ | y
      · exact absurd (List.getLast?_eq_none_iff.mp hy) hnn
      · rw [hy] at h
        have hy' : y = '/' := by simpa using h
        subst hy'
        have hrr := ih hy
        rw [show ((c :: r : Str)) = [c] ++ r from rfl, List.getLast?_append, hrr]
        rfl

theorem rstrip_eq_self (s : Str) (h : s.getLast? ≠ some '/') : rstripSlashes s = s := by
  cases hr : s.reverse with
  | nil =>
    have : s = [] := by simpa using congrArg List.reverse hr
    subst this
    rfl
  | cons c t =>
    have hc : s.getLast? = some c := by
      rw [← List.head?_reverse, hr]
      rfl
    have hcne : c ≠ '/' := by
      intro he
      rw [he] at hc
      exact h hc
    rw [rstripSlashes, hr, List.dropWhile_cons, if_neg (by simp [hcne])]
    rw [← hr, List.reverse_reverse]

/-- C10 (amended): for a template given as literal text interleaved with
`${name}` placeholders — literal text free of `$`/braces, names made of
identifier characters and colons, the rendered template not ending in a
slash — whenever the letter sequence `colon` occurs neither in the
directly-substituted result nor in any placeholder name, `get_path` returns
exactly the direct substitution: every literal `:` of the template is
preserved in place, and a placeholder name containing `:` is looked up in
`properties` under its original colon-containing name. -/
theorem claim10_colon_roundtrip (item : Item) (segs : List TSeg) (d : Str)
    (hWF : segsOK segs = true)
    (hslash : (renderT segs).getLast? ≠ some '/')
    (hd : directSubst item segs = .ok d)
    (hnc : containsSub (str "colon") d = false) :
    get_path item (.strT (renderT segs)) = .ok d := by
  have hkeyok : ∀ n, TSeg.ph n ∈ segs → ∃ v, directKey item n = .ok v :=
    fun n hn => directSubst_ph item segs n d hn hd
  have hsub : ∀ n, TSeg.ph n ∈ segs → ∃ v, directKey item n = .ok v
      ∧ lookupA (segsSubs item segs) (escColons n) = some v := by
    intro n hn
    obtain ⟨v, hv⟩ := hkeyok n hn
    exact ⟨v, hv, lookup_segsSubs item segs hWF n v hn hv⟩
  have hlast : (renderEsc segs).getLast? ≠ some '/' := by
    rw [← escColons_renderT]
    intro hcontra
    exact hslash (escColons_last _ hcontra)
  rw [get_path]
  rw [escColons_renderT, rstrip_eq_self _ hlast, fk_renderEsc segs hWF]
  dsimp only
  rw [buildSubs_segsSubs item segs hkeyok hWF]
  dsimp only
  rw [tsub_mcOfSegs item (segsSubs item segs) segs hWF hsub]
  dsimp only
  rw [unescape_toEsc _ (by rw [toDirect_mcOfSegs item segs d hd]; exact hnc)]
  rw [toDirect_mcOfSegs item segs d hd]

/-- Concrete instantiation of the amended C10: template `a:${eo:cloud_cover}/b:c`
on a record with `properties["eo:cloud_cover"] = 42` resolves to `a:42/b:c`
with both literal colons preserved. -/
theorem claim10_colon_roundtrip_witness :
    get_path
        { collection := some (str "c1"), id := some (str "i1"),
          properties := [(str "eo:cloud_cover", .i 42)], links := [] }
        (.strT (renderT [TSeg.lit (str "a:"), TSeg.ph (str "eo:cloud_cover"),
          TSeg.lit (str "/b:c")]))
      = .ok (str "a:42/b:c")
    ∧ renderT [TSeg.lit (str "a:"), TSeg.ph (str "eo:cloud_cover"), TSeg.lit (str "/b:c")]
      = str "a:${eo:cloud_cover}/b:c" := by
  constructor
  · exact claim10_colon_roundtrip
      { collection := some (str "c1"), id := some (str "i1"),
        properties := [(str "eo:cloud_cover", .i 42)], links := [] }
      [TSeg.lit (str "a:"), TSeg.ph (str "eo:cloud_cover"), TSeg.lit (str "/b:c")]
      (str "a:42/b:c") (by decide) (by decide) rfl (by decide)
  · decide

/-- C10 counterexample: the template `x__colon:y` contains no placeholder and
no occurrence of `__colon__`, yet `get_path` returns `x:colon__y` instead of
the template itself (which is what direct resolution gives): the literal
colon is not preserved in place, because the escaped text
`x__colon__colon__y` contains a spurious earlier occurrence of `__colon__`
that the final restore replaces first. -/
theorem claim10_escape_not_transparent :
    get_path
        { collection := some (str "c"), id := some (str "i"), properties := [], links := [] }
        (.strT (str "x__colon:y"))
      = .ok (str "x:colon__y")
    ∧ containsSub (str "__colon__") (str "x__colon:y") = false
    ∧ str "x:colon__y" ≠ str "x__colon:y"
    ∧ directSubst
        { collection := some (str "c"), id := some (str "i"), properties := [], links := [] }
        [TSeg.lit (str "x__colon:y")]
      = .ok (str "x__colon:y")
    ∧ renderT [TSeg.lit (str "x__colon:y")] = str "x__colon:y" := by
  exact ⟨rfl, rfl, by decide, rfl, rfl⟩

end PublishStac
